import Mathlib

/-!
Verification development for the slicer-profiles-db repository.

This file gives a shallow embedding, in Lean 4, of the parts of the
repository that the audited claims are about:

* the version algebra (`models._version_key`, `versions.sort_versions`,
  `versions.normalize_version`),
* the profile model (`models.StoredProfile` with `get_latest`,
  `get_at_version`, `changed_settings`, `evaluate`),
* the versioned profile store (`store.ProfileStore.ingest_profiles`,
  `_create_stored`, `_merge_version`, `_merge_rename`, `_sanitize`,
  `_normalize`, `_list_profile_keys`, `_update_meta`),
* the resource store (`resources.ResourceStore.gc`),
* the condition evaluator (`conditions.evaluate_printer_condition`,
  `_evaluate_expression`, `_evaluate_single_condition`,
  `_find_first_parenthesis_set`).

Python strings are modelled as `List Char`; Python dicts are modelled as
insertion-ordered association lists; Python's JSON-style dynamic values are
modelled by the inductive type `PyValue` (`None` is `PyValue.none`); Python
runtime exceptions are modelled with `Except`.  The filesystem of the store
is modelled as an association list from file keys to file contents.
Definitions are translated from the repository source; definitions that
translate the wording of the specification instead (for refinement
comparisons) carry `Spec` in their name and say so in their doc comment.
-/

set_option maxRecDepth 20000

/-- Python strings, modelled as lists of characters (Lean's `String`
primitives do not reduce well in the kernel, characters do). -/
abbrev Str := List Char

/-- The characters of a Lean string literal, used to write `Str` constants. -/
def strOf (s : String) : Str := s.data

/-- Python `str.strip()` (no argument): remove leading and trailing
whitespace. -/
def strTrim (s : Str) : Str :=
  ((s.dropWhile Char.isWhitespace).reverse.dropWhile Char.isWhitespace).reverse

/-- Python `str.strip(chars)`: remove leading and trailing characters drawn
from `chars`. -/
def strStripChars (chars : Str) (s : Str) : Str :=
  ((s.dropWhile (chars.contains ·)).reverse.dropWhile (chars.contains ·)).reverse

/-- Python `str.lower()` (ASCII fragment used by the repository). -/
def strLower (s : Str) : Str := s.map Char.toLower

/-- Does `pat` occur at the start of `s`?  (Python `str.startswith`.) -/
def strStarts (pat s : Str) : Bool :=
  match pat, s with
  | [], _ => true
  | _ :: _, [] => false
  | p :: ps, c :: cs => p == c && strStarts ps cs

/-- Split on every character satisfying `p`, keeping empty segments —
the behaviour of `re.split` with a character class, e.g.
`re.split(r"[.\-_]", v)` in `models._version_key`. -/
def splitOnPred (p : Char → Bool) (s : Str) : List Str :=
  match s with
  | [] => [[]]
  | c :: rest =>
    let tail := splitOnPred p rest
    if p c then [] :: tail
    else match tail with
      | [] => [[c]]
      | t :: ts => (c :: t) :: ts

/-- Fuelled worker for `splitOnSub`; the string shrinks at every step, so
fuel `s.length + 1` always suffices (the fuel-0 branch is unreachable). -/
def splitOnSubF (sepH : Char) (sepT : Str) : Nat → Str → List Str
  | 0, s => [s]
  | fuel + 1, s =>
    match s with
    | [] => [[]]
    | c :: rest =>
      if strStarts (sepH :: sepT) (c :: rest) then
        [] :: splitOnSubF sepH sepT fuel (rest.drop sepT.length)
      else match splitOnSubF sepH sepT fuel rest with
        | [] => [[c]]
        | t :: ts => (c :: t) :: ts

/-- Python `str.split(sep)` for a non-empty separator: split on each
non-overlapping, leftmost occurrence, keeping empty segments. -/
def splitOnSub (sepH : Char) (sepT : Str) (s : Str) : List Str :=
  splitOnSubF sepH sepT (s.length + 1) s

/-- Python `sep in s` (substring containment) for a non-empty separator,
phrased through the split as the evaluator's behaviour only depends on the
split. -/
def strHasSub (sepH : Char) (sepT : Str) (s : Str) : Bool :=
  (splitOnSub sepH sepT s).length != 1

/-- Python `str.split()` with no argument: split on whitespace runs and drop
empty words. -/
def strWords (s : Str) : List Str :=
  (splitOnPred Char.isWhitespace s).filter (· ≠ [])

/-- Number of occurrences of a character (`str.count` on a 1-char needle). -/
def countChar (c : Char) (s : Str) : Nat := (s.filter (· == c)).length

/-- Decimal digits of a natural number; fuelled so that the kernel can
reduce it (`fuel ≥ number of digits` always holds for `fuel = n + 1`). -/
def natDigits (fuel : Nat) (n : Nat) (acc : Str) : Str :=
  match fuel with
  | 0 => acc
  | fuel + 1 =>
    if n = 0 then acc
    else natDigits fuel (n / 10) (Char.ofNat (48 + n % 10) :: acc)

/-- Decimal rendering of a natural number (`str(n)` for `n ≥ 0`). -/
def natToStr (n : Nat) : Str :=
  if n = 0 then ['0'] else natDigits (n + 1) n []

/-- Decimal rendering of an integer (`str(n)` in Python). -/
def intToStr (n : Int) : Str :=
  if n < 0 then '-' :: natToStr n.natAbs else natToStr n.natAbs

/-- Value of a digit string (all characters assumed decimal digits). -/
def digitsVal (s : Str) : Nat :=
  s.foldl (fun acc c => acc * 10 + (c.toNat - 48)) 0

/-!  ### Version algebra (`models._version_key`, `versions.py`)  -/

/-- Python `int(part)` as used by `_version_key`: strip whitespace, accept an
optional sign followed by decimal digits, anything else raises `ValueError`
(represented as `none`).  (Underscored digit groups cannot occur because the
caller has already split on `_`; unicode digits are outside the model.) -/
def parseIntOpt (s : Str) : Option Int :=
  let t := strTrim s
  match t with
  | '-' :: ds => if ds ≠ [] && ds.all Char.isDigit then some (-(digitsVal ds : Int)) else none
  | '+' :: ds => if ds ≠ [] && ds.all Char.isDigit then some (digitsVal ds : Int) else none
  | ds => if ds ≠ [] && ds.all Char.isDigit then some (digitsVal ds : Int) else none

/-- One part of a version key: `int(part)` with `ValueError` mapped to `0`,
as in `models._version_key`. -/
def parseIntPart (s : Str) : Int := (parseIntOpt s).getD 0

/-- `models._version_key`: split on `.`, `-`, `_` and convert each part to an
integer (non-numeric parts become 0). -/
def versionKey (v : Str) : List Int :=
  (splitOnPred (fun c => c == '.' || c == '-' || c == '_') v).map parseIntPart

/-- Lexicographic comparison of version keys — Python tuple comparison,
where a strict prefix is smaller. -/
def vkCompare : List Int → List Int → Ordering
  | [], [] => .eq
  | [], _ :: _ => .lt
  | _ :: _, [] => .gt
  | a :: as, b :: bs =>
    if a < b then .lt else if b < a then .gt else vkCompare as bs

/-- `key a < key b` on version keys (Python tuple `<`). -/
def vkLtB (a b : List Int) : Bool := vkCompare a b == .lt

/-- `key a ≤ key b` on version keys (Python tuple `<=`). -/
def vkLeB (a b : List Int) : Bool := vkCompare a b != .gt

/-- `versions.normalize_version`: strip a leading `version_` or `v`
(case-insensitively) after trimming. -/
def normalizeVersion (raw : Str) : Str :=
  let s := strTrim raw
  if strStarts (strOf "version_") (strLower s) then s.drop (strOf "version_").length
  else if strStarts (strOf "v") (strLower s) then s.drop 1
  else s

/-- Stable insertion of `x` after every element whose version key is `≤` the
key of `x`.  Inserting each element of the input, left to right, into an
accumulator this way computes the unique stable sort by version key — the
behaviour of Python's stable `sorted(versions, key=version_key)` in
`versions.sort_versions`. -/
def insertVer (x : Str) : List Str → List Str
  | [] => [x]
  | y :: ys =>
    if vkLeB (versionKey y) (versionKey x) then y :: insertVer x ys
    else x :: y :: ys

/-- Left-to-right insertion pass for `sortVersions`. -/
def sortVersionsAux : List Str → List Str → List Str
  | acc, [] => acc
  | acc, x :: xs => sortVersionsAux (insertVer x acc) xs

/-- `versions.sort_versions`: stable sort by `version_key`. -/
def sortVersions (l : List Str) : List Str := sortVersionsAux [] l

/-!  ### Python values

Dynamically-typed JSON-style values as they flow through the repository.
`PyValue.none` is Python's `None` (also JSON `null`); there is no separate
"absent" marker because Python functions in the source return `None` for
absent keys. -/

inductive PyValue where
  | none : PyValue
  | bool : Bool → PyValue
  | int : Int → PyValue
  | float : Rat → PyValue
  | str : Str → PyValue
  | list : List PyValue → PyValue
  | dict : List (Str × PyValue) → PyValue

mutual
/-- Structural size of a value (used as recursion fuel for `pyEqB`). -/
def pySize : PyValue → Nat
  | .none | .bool _ | .int _ | .float _ | .str _ => 1
  | .list xs => 1 + pySizeList xs
  | .dict kvs => 1 + pySizeDict kvs

/-- Combined size of list elements. -/
def pySizeList : List PyValue → Nat
  | [] => 1
  | v :: rest => 1 + pySize v + pySizeList rest

/-- Combined size of dict entries. -/
def pySizeDict : List (Str × PyValue) → Nat
  | [] => 1
  | (_, v) :: rest => 1 + pySize v + pySizeDict rest
end

mutual
/-- Fuelled worker for Python `==` on values (see `pyEqB`): every recursive
call strictly decreases the combined `pySize` of the two value arguments,
and every size is at least 1, so fuel `pySize a + pySize b` never runs out
and the fuel-0 branch is unreachable. -/
def pyEqF : Nat → PyValue → PyValue → Bool
  | 0, _, _ => false
  | fuel + 1, a, b =>
    match a, b with
    | .none, .none => true
    | .bool a, .bool b => a == b
    | .bool a, .int n => (if a then (1 : Int) else 0) == n
    | .int n, .bool b => n == (if b then (1 : Int) else 0)
    | .bool a, .float q => q.num == (if a then (1 : Int) else 0) && q.den == 1
    | .float q, .bool b => q.num == (if b then (1 : Int) else 0) && q.den == 1
    | .int a, .int b => a == b
    | .int a, .float q => q.num == a && q.den == 1
    | .float q, .int a => q.num == a && q.den == 1
    | .float a, .float b => a == b
    | .str a, .str b => a == b
    | .list a, .list b => pyEqListF fuel a b
    | .dict a, .dict b => a.length == b.length && pyEqDictSubF fuel a b
    | _, _ => false

/-- Positional `==` on Python lists (fuelled worker). -/
def pyEqListF : Nat → List PyValue → List PyValue → Bool
  | 0, _, _ => false
  | fuel + 1, a, b =>
    match a, b with
    | [], [] => true
    | x :: xs, y :: ys => pyEqF fuel x y && pyEqListF fuel xs ys
    | _, _ => false

/-- Each key of the first dict is present in the second with an equal value
(fuelled worker). -/
def pyEqDictSubF : Nat → List (Str × PyValue) → List (Str × PyValue) → Bool
  | 0, _, _ => false
  | fuel + 1, d1, d2 =>
    match d1 with
    | [] => true
    | (k, v) :: rest => pyEqDictGetF fuel k v d2 && pyEqDictSubF fuel rest d2

/-- Lookup of `k` in a dict followed by `==` against `v`, false if absent
(fuelled worker). -/
def pyEqDictGetF : Nat → Str → PyValue → List (Str × PyValue) → Bool
  | 0, _, _, _ => false
  | fuel + 1, k, v, d =>
    match d with
    | [] => false
    | (k2, v2) :: rest => if k == k2 then pyEqF fuel v v2 else pyEqDictGetF fuel k v rest
end

/-- Python `==` on values: numeric types (`bool`/`int`/`float`) compare by
value, lists positionally, dicts by key set regardless of insertion order;
everything else compares false across types. -/
def pyEqB (a b : PyValue) : Bool := pyEqF (pySize a + pySize b) a b

/-- Python truthiness (`bool(v)`) for the values the repository tests with
`if not rf:` in `store._extract_renamed_from`. -/
def pyFalsy : PyValue → Bool
  | .none => true
  | .bool b => !b
  | .int n => n == 0
  | .float q => q == 0
  | .str s => s.isEmpty
  | .list l => l.isEmpty
  | .dict d => d.isEmpty

/-- Concatenate parts with a separator between them (`sep.join(parts)`). -/
def joinSep (sep : Str) : List Str → Str
  | [] => []
  | [x] => x
  | x :: xs => x ++ sep ++ joinSep sep xs

/-- Code-point lexicographic `<` on strings (Python `str` comparison, used
by `sort_keys=True` in `json.dumps`). -/
def strLtB : Str → Str → Bool
  | [], [] => false
  | [], _ :: _ => true
  | _ :: _, [] => false
  | a :: as, b :: bs =>
    if a.val < b.val then true else if b.val < a.val then false else strLtB as bs

/-- Stable insertion for a boolean `≤`-test (insert after equal elements). -/
def insertLe (le : α → α → Bool) (x : α) : List α → List α
  | [] => [x]
  | y :: ys => if le y x then y :: insertLe le x ys else x :: y :: ys

/-- Stable sort by a boolean `≤`-test (left-to-right insertion — the unique
stable sort, hence the behaviour of Python's `sorted`). -/
def sortLe (le : α → α → Bool) (l : List α) : List α :=
  l.foldl (fun acc x => insertLe le x acc) []

/-- JSON string escaping for one character (the control-character `\uXXXX`
escapes beyond the common ones are outside the model; no claim depends on
them). -/
def escChar (c : Char) : Str :=
  if c = '"' then ['\\', '"']
  else if c = '\\' then ['\\', '\\']
  else if c = '\n' then ['\\', 'n']
  else if c = '\t' then ['\\', 't']
  else if c = '\r' then ['\\', 'r']
  else [c]

/-- JSON string escaping. -/
def escapeJson (s : Str) : Str := s.foldr (fun c acc => escChar c ++ acc) []

/-- Rendering of a Python float.  Exact for integral values (`repr(2.0)` is
`"2.0"`); the decimal rendering of non-integral floats is abstracted as
`num/den` — no claim exercises it. -/
def floatRepr (q : Rat) : Str :=
  if q.den = 1 then intToStr q.num ++ strOf ".0"
  else intToStr q.num ++ '/' :: natToStr q.den

mutual
/-- `json.dumps(value, sort_keys=True, ensure_ascii=False)` — the canonical
JSON normalization used by `store._normalize`: dict keys sorted recursively,
default separators. -/
def jsonDumps : PyValue → Str
  | .none => strOf "null"
  | .bool true => strOf "true"
  | .bool false => strOf "false"
  | .int n => intToStr n
  | .float q => floatRepr q
  | .str s => '"' :: escapeJson s ++ ['"']
  | .list xs => '[' :: joinSep (strOf ", ") (jsonDumpsList xs) ++ [']']
  | .dict kvs =>
    let rendered := jsonDumpsPairs kvs
    let sorted := sortLe (fun a b => !strLtB b.1 a.1) rendered
    '\x7b' :: joinSep (strOf ", ")
      (sorted.map (fun kv => '"' :: escapeJson kv.1 ++ strOf "\": " ++ kv.2)) ++ ['\x7d']

/-- Renderings of the elements of a list value. -/
def jsonDumpsList : List PyValue → List Str
  | [] => []
  | v :: rest => jsonDumps v :: jsonDumpsList rest

/-- Keys paired with the renderings of their values. -/
def jsonDumpsPairs : List (Str × PyValue) → List (Str × Str)
  | [] => []
  | (k, v) :: rest => (k, jsonDumps v) :: jsonDumpsPairs rest
end

mutual
/-- Python `repr` of a value (string quoting simplified to bare single
quotes; no claim depends on quote escaping). -/
def pyRepr : PyValue → Str
  | .none => strOf "None"
  | .bool true => strOf "True"
  | .bool false => strOf "False"
  | .int n => intToStr n
  | .float q => floatRepr q
  | .str s => '\'' :: s ++ ['\'']
  | .list xs => '[' :: joinSep (strOf ", ") (pyReprList xs) ++ [']']
  | .dict kvs =>
    '\x7b' :: joinSep (strOf ", ")
      ((pyReprPairs kvs).map (fun kv => '\'' :: kv.1 ++ strOf "': " ++ kv.2)) ++ ['\x7d']

/-- `repr` of each element of a list. -/
def pyReprList : List PyValue → List Str
  | [] => []
  | v :: rest => pyRepr v :: pyReprList rest

/-- Keys paired with the `repr` of their values. -/
def pyReprPairs : List (Str × PyValue) → List (Str × Str)
  | [] => []
  | (k, v) :: rest => (k, pyRepr v) :: pyReprPairs rest
end

/-- Python `str(value)`: identity on strings, `repr` otherwise (for the
types flowing through the evaluator). -/
def pyStr : PyValue → Str
  | .str s => s
  | v => pyRepr v

/-- Python `float(string)` on the decimal fragment: optional sign, digits
with an optional decimal point (`"1"`, `"1.5"`, `".5"`, `"2."`).  Exponent,
`inf` and `nan` forms are outside the model; no profile condition in the
claims uses them. -/
def parseFloatDigits : Str → Option Rat
  | s =>
    let ip := s.takeWhile Char.isDigit
    let rest := s.dropWhile Char.isDigit
    match rest with
    | [] => if ip ≠ [] then some (mkRat (digitsVal ip) 1) else Option.none
    | '.' :: fp =>
      if fp.all Char.isDigit && (ip ≠ [] || fp ≠ []) then
        some (mkRat (digitsVal ip * 10 ^ fp.length + digitsVal fp) (10 ^ fp.length))
      else Option.none
    | _ => Option.none

/-- Python `float(string)` including sign and whitespace handling. -/
def parseFloat (s : Str) : Option Rat :=
  match strTrim s with
  | '-' :: t => (parseFloatDigits t).map (fun q => -q)
  | '+' :: t => parseFloatDigits t
  | t => parseFloatDigits t

/-- Python `float(value)` on a dynamic value: numbers and booleans coerce,
strings parse, everything else raises (`none`). -/
def pyFloat : PyValue → Option Rat
  | .int n => some (mkRat n 1)
  | .float q => some q
  | .bool b => some (mkRat (if b then 1 else 0) 1)
  | .str s => parseFloat s
  | _ => Option.none

/-- `store.ProfileStore._normalize`: `""` for `None`, canonical JSON
otherwise. -/
def pyNormalize : PyValue → Str
  | .none => []
  | v => jsonDumps v

/-!  ### Insertion-ordered dictionaries (Python `dict`)  -/

/-- First-match lookup in an association list (`d.get(k)` on a dict whose
keys are unique). -/
def dictLookup [DecidableEq α] : List (α × β) → α → Option β
  | [], _ => Option.none
  | (k2, v) :: rest, k => if k2 = k then some v else dictLookup rest k

/-- Python `d[k] = v`: overwrite in place if the key is present (keeping its
insertion position), append otherwise. -/
def dictInsert [DecidableEq α] : List (α × β) → α → β → List (α × β)
  | [], k, v => [(k, v)]
  | (k2, v2) :: rest, k, v =>
    if k2 = k then (k2, v) :: rest else (k2, v2) :: dictInsert rest k v

/-- Python `d.update(u)`: insert every entry of `u`, left to right. -/
def dictUpdate [DecidableEq α] (d u : List (α × β)) : List (α × β) :=
  u.foldl (fun acc kv => dictInsert acc kv.1 kv.2) d

/-- The keys of a dict, in insertion order. -/
def dictKeys (d : List (α × β)) : List α := d.map Prod.fst

/-!  ### Profile model (`models.py`)  -/

/-- `models.SlicerType`. -/
inductive SlicerT where
  | bambustudio | orcaslicer | prusaslicer | cura | elegooslicer | superslicer
deriving DecidableEq

/-- The `.value` string of a `SlicerType` member. -/
def SlicerT.val : SlicerT → Str
  | .bambustudio => strOf "bambustudio"
  | .orcaslicer => strOf "orcaslicer"
  | .prusaslicer => strOf "prusaslicer"
  | .cura => strOf "cura"
  | .elegooslicer => strOf "elegooslicer"
  | .superslicer => strOf "superslicer"

/-- `models.ProfileType`. -/
inductive ProfileT where
  | filament | machine | machine_model | print
deriving DecidableEq

/-- The `.value` string of a `ProfileType` member. -/
def ProfileT.val : ProfileT → Str
  | .filament => strOf "filament"
  | .machine => strOf "machine"
  | .machine_model => strOf "machine_model"
  | .print => strOf "print"

/-- `models.ParsedProfile` (the `source_path` field plays no role in the
claims and is omitted). -/
structure ParsedProfileL where
  slicer : SlicerT
  profile_type : ProfileT
  name : Str
  vendor : Str
  settings : List (Str × PyValue)
  filament_id : Option Str := Option.none
  setting_id : Option Str := Option.none
  filament_type : Option Str := Option.none
  filament_settings_id : Option Str := Option.none

/-- `models.StoredProfile`: per-setting version history as an
insertion-ordered dict of insertion-ordered dicts. -/
structure StoredProfileL where
  slicer : Str
  profile_type : Str
  name : Str
  vendor : Str
  first_seen : Str
  last_seen : Str
  filament_id : Option Str := Option.none
  setting_id : Option Str := Option.none
  renamed_from : Option Str := Option.none
  settings : List (Str × List (Str × PyValue)) := []

/-- `StoredProfile.get_latest`: last value in insertion order, `None` when
the key is absent or its history empty. -/
def getLatest (sp : StoredProfileL) (key : Str) : PyValue :=
  match dictLookup sp.settings key with
  | Option.none => .none
  | some versions =>
    match versions.getLast? with
    | some kv => kv.2
    | Option.none => .none

/-- `StoredProfile.get_at_version`: walk the entries in insertion order and
return the value of the last entry whose version key is `≤` the requested
version's key (`None` when no entry qualifies or the key is absent). -/
def getAtVersion (sp : StoredProfileL) (key : Str) (version : Str) : PyValue :=
  match dictLookup sp.settings key with
  | Option.none => .none
  | some versions =>
    let target := versionKey version
    versions.foldl
      (fun result kv => if vkLeB (versionKey kv.1) target then kv.2 else result)
      .none

/-- Spec-modelled comparison point for `get_at_version`, following the
specification's words: "value at the greatest recorded version ≤ V under
the ordering".  Among the entries whose version key is `≤` the requested
key it keeps the first entry with the maximal version key. -/
def specGetAtVersion (sp : StoredProfileL) (key : Str) (version : Str) : PyValue :=
  match dictLookup sp.settings key with
  | Option.none => .none
  | some versions =>
    let target := versionKey version
    let best := (versions.filter (fun kv => vkLeB (versionKey kv.1) target)).foldl
      (fun best kv =>
        match best with
        | Option.none => some kv
        | some b => if vkLtB (versionKey b.1) (versionKey kv.1) then some kv else best)
      Option.none
    match best with
    | some kv => kv.2
    | Option.none => .none

/-- `StoredProfile.changed_settings`: keys (in settings order) whose values
at the two versions differ under Python `!=`, paired with both values. -/
def changedSettings (sp : StoredProfileL) (fromV toV : Str) :
    List (Str × (PyValue × PyValue)) :=
  sp.settings.filterMap (fun kv =>
    let oldVal := getAtVersion sp kv.1 fromV
    let newVal := getAtVersion sp kv.1 toV
    if pyEqB oldVal newVal then Option.none else some (kv.1, (oldVal, newVal)))

/-- Spec-modelled comparison point for `changed_settings`, following the
specification's words: the difference between the two values is judged by
the canonical-JSON normalization (`_normalize`) instead of Python `!=`. -/
def specChangedSettings (sp : StoredProfileL) (fromV toV : Str) :
    List (Str × (PyValue × PyValue)) :=
  sp.settings.filterMap (fun kv =>
    let oldVal := getAtVersion sp kv.1 fromV
    let newVal := getAtVersion sp kv.1 toV
    if pyNormalize oldVal == pyNormalize newVal then Option.none
    else some (kv.1, (oldVal, newVal)))

/-- `StoredProfile.evaluate`: flat snapshot at a version — for each key, the
value of the last entry (in insertion order) whose version key is `≤` the
requested key; keys with no qualifying entry are omitted. -/
def evaluateAt (sp : StoredProfileL) (version : Str) : List (Str × PyValue) :=
  let target := versionKey version
  sp.settings.filterMap (fun kv =>
    let r := kv.2.foldl
      (fun acc v => if vkLeB (versionKey v.1) target then some v.2 else acc)
      Option.none
    r.map (fun val => (kv.1, val)))

/-!  ### Versioned store (`store.py`)  -/

/-- `store.ProfileStore._META_KEYS`. -/
def metaKeys : List Str := [strOf "renamed_from"]

/-- Fuelled worker for `collapseUnd` (the string shrinks at every step, so
fuel `s.length + 1` always suffices; the fuel-0 branch is unreachable). -/
def collapseUndF : Nat → Str → Str
  | 0, s => s
  | fuel + 1, s =>
    match s with
    | [] => []
    | '_' :: rest => '_' :: collapseUndF fuel (rest.dropWhile (· == '_'))
    | c :: rest => c :: collapseUndF fuel rest

/-- `store.ProfileStore._sanitize` step: collapse runs of `_`
(`re.sub(r"_+", "_", s)`). -/
def collapseUnd (s : Str) : Str := collapseUndF (s.length + 1) s

/-- Characters replaced by `_` in `store.ProfileStore._sanitize`. -/
def badFsChar (c : Char) : Bool :=
  (['<', '>', ':', '"', '/', '\\', '|', '?', '*'] : Str).contains c

/-- `store.ProfileStore._sanitize`: replace problematic characters with `_`,
collapse runs of `_`, strip leading/trailing `_`, `.` and space. -/
def sanitize (name : Str) : Str :=
  strStripChars (strOf "_. ")
    (collapseUnd (name.map (fun c => if badFsChar c then '_' else c)))

/-- A profile file's location `{slicer}/{vendor}/{type}/{fname}.json`
(`store.ProfileStore._profile_path` without the root). -/
structure PathKey where
  slicer : Str
  vendor : Str
  ptype : Str
  fname : Str
deriving DecidableEq

/-- Path for given coordinates: the file name is the sanitized profile
name. -/
def pathKeyFor (slicer ptype vendor name : Str) : PathKey :=
  ⟨slicer, vendor, ptype, sanitize name⟩

/-- The path a `StoredProfile` is saved at (from its own fields, as in
`_save`). -/
def storedPathKey (sp : StoredProfileL) : PathKey :=
  pathKeyFor sp.slicer sp.profile_type sp.vendor sp.name

/-- `store.ProfileStore._profile_key`:
`f"{slicer.value}/{vendor}/{pt}/{name}"` with the raw profile name. -/
def rawProfileKey (slicer : SlicerT) (p : ParsedProfileL) : Str :=
  slicer.val ++ '/' :: p.vendor ++ '/' :: p.profile_type.val ++ '/' :: p.name

/-- The key `_list_profile_keys` derives from a file path:
`f"{slicer}/{vendor}/{type}/{stem}"` where the stem is the sanitized name. -/
def diskKey (k : PathKey) : Str :=
  k.slicer ++ '/' :: k.vendor ++ '/' :: k.ptype ++ '/' :: k.fname

/-- Per-slicer `_meta.json` content. -/
structure MetaD where
  versions : List Str
  last_ingested : Option Str
deriving DecidableEq

/-- The store's on-disk state: profile files keyed by path, and the
per-slicer metadata files. -/
structure Store where
  files : List (PathKey × StoredProfileL)
  metas : List (Str × MetaD)

/-- The empty store root. -/
def emptyStore : Store := ⟨[], []⟩

/-- `store.ProfileStore._load` (via `_profile_path`): the file's content, or
`None` when the file does not exist. -/
def storeLoad (st : Store) (k : PathKey) : Option StoredProfileL :=
  dictLookup st.files k

/-- `store.ProfileStore._save`: write the profile at the path derived from
its own fields, replacing any existing file. -/
def storeSave (st : Store) (sp : StoredProfileL) : Store :=
  { st with files := dictInsert st.files (storedPathKey sp) sp }

/-- `store.ProfileStore._delete`: remove the file at the path if present. -/
def storeDelete (st : Store) (k : PathKey) : Store :=
  { st with files := st.files.filter (fun e => decide (e.1 ≠ k)) }

/-- `store.ProfileStore.get`: load a stored profile by its coordinates. -/
def storeGet (st : Store) (slicer : SlicerT) (ptype vendor name : Str) :
    Option StoredProfileL :=
  storeLoad st (pathKeyFor slicer.val ptype vendor name)

/-- `store.ProfileStore._extract_renamed_from`. -/
def firstStrValue : List (Str × PyValue) → Option Str
  | [] => Option.none
  | (_, .str s) :: _ => some s
  | _ :: rest => firstStrValue rest

/-- `store.ProfileStore._extract_renamed_from`: the old profile name from a
`renamed_from` setting (plain string, or first string value of a dict). -/
def extractRenamedFrom (settings : List (Str × PyValue)) : Option Str :=
  match dictLookup settings (strOf "renamed_from") with
  | Option.none => Option.none
  | some rf =>
    if pyFalsy rf then Option.none
    else match rf with
      | .str s => some s
      | .dict kvs => firstStrValue kvs
      | _ => Option.none

/-- `store.ProfileStore._create_stored`: one-entry version history per
non-metadata setting. -/
def createStored (p : ParsedProfileL) (version : Str) : StoredProfileL :=
  { slicer := p.slicer.val
    profile_type := p.profile_type.val
    name := p.name
    vendor := p.vendor
    first_seen := version
    last_seen := version
    filament_id := p.filament_id
    setting_id := p.setting_id
    renamed_from := Option.none
    settings := p.settings.filterMap (fun kv =>
      if metaKeys.contains kv.1 then Option.none
      else some (kv.1, [(version, kv.2)])) }

/-- `store.ProfileStore._merge_version`: set `last_seen`, and for each
non-metadata parsed setting whose normalized value differs from
`get_latest`, record `version → value` (overwriting in place if the version
is already present, appending otherwise). Returns the updated profile and
the changed keys. -/
def mergeVersion (stored : StoredProfileL) (p : ParsedProfileL) (version : Str) :
    StoredProfileL × List Str :=
  p.settings.foldl
    (fun acc kv =>
      if metaKeys.contains kv.1 then acc
      else
        let current := getLatest acc.1 kv.1
        if pyNormalize current == pyNormalize kv.2 then acc
        else
          let history := (dictLookup acc.1.settings kv.1).getD []
          ({ acc.1 with
              settings := dictInsert acc.1.settings kv.1 (dictInsert history version kv.2) },
            acc.2 ++ [kv.1]))
    ({ stored with last_seen := version }, [])

/-- `store.ProfileStore._merge_rename`, settings part: for each key of the
old profile in order — if the successor has history for it, replace it in
place by `dict(old_versions)` updated with the successor's entries;
otherwise append a copy of the old history. -/
def mergeRenameSettings (oldS newS : List (Str × List (Str × PyValue))) :
    List (Str × List (Str × PyValue)) :=
  oldS.foldl
    (fun acc kv =>
      match dictLookup acc kv.1 with
      | some newh => dictInsert acc kv.1 (dictUpdate kv.2 newh)
      | Option.none => acc ++ [kv])
    newS

/-- `store.ProfileStore._merge_rename`: the successor adopts the
predecessor's `first_seen`, records `renamed_from`, and merges histories. -/
def mergeRename (newP oldP : StoredProfileL) : StoredProfileL :=
  { newP with
    first_seen := oldP.first_seen
    renamed_from := some oldP.name
    settings := mergeRenameSettings oldP.settings newP.settings }

/-- `store.ProfileStore._list_profile_keys`: keys of every profile file on
disk for the slicer, skipping vendor directories that start with `_`. -/
def listProfileKeys (st : Store) (slicer : SlicerT) : List Str :=
  st.files.filterMap (fun e =>
    if e.1.slicer = slicer.val ∧ ¬ strStarts (strOf "_") e.1.vendor then
      some (diskKey e.1)
    else Option.none)

/-- `store.ProfileStore._update_meta`: append the version if absent, set
`last_ingested`. -/
def updateMeta (st : Store) (slicer : SlicerT) (version : Str) : Store :=
  let meta := (dictLookup st.metas slicer.val).getD ⟨[], Option.none⟩
  let versions :=
    if meta.versions.contains version then meta.versions
    else meta.versions ++ [version]
  { st with metas := dictInsert st.metas slicer.val ⟨versions, some version⟩ }

/-- Accumulator of the per-profile loop of `ingest_profiles`. -/
structure IngestAcc where
  store : Store
  added : List Str
  changed : List (Str × List Str)
  seen : List Str

/-- The body of the per-profile loop of `store.ProfileStore.ingest_profiles`
for one `ParsedProfile`. -/
def processProfile (slicer : SlicerT) (version : Str) (acc : IngestAcc)
    (p : ParsedProfileL) : IngestAcc :=
  let key := rawProfileKey slicer p
  let seenNext := acc.seen ++ [key]
  match storeLoad acc.store (pathKeyFor slicer.val p.profile_type.val p.vendor p.name) with
  | Option.none =>
    let stored := createStored p version
    let nextStore :=
      match extractRenamedFrom p.settings with
      | some oldName =>
        match storeLoad acc.store (pathKeyFor slicer.val p.profile_type.val p.vendor oldName) with
        | some oldProf =>
          let merged := mergeRename stored oldProf
          let st1 := storeDelete acc.store (pathKeyFor slicer.val p.profile_type.val p.vendor oldName)
          storeSave st1 merged
        | Option.none => storeSave acc.store stored
      | Option.none => storeSave acc.store stored
    { store := nextStore, added := acc.added ++ [p.name], changed := acc.changed,
      seen := seenNext }
  | some existing =>
    let prevLast := existing.last_seen
    let res := mergeVersion existing p version
    let changedNext :=
      if res.2 ≠ [] then acc.changed ++ [(p.name, res.2)] else acc.changed
    let stNext :=
      if res.2 ≠ [] ∨ prevLast ≠ version then storeSave acc.store res.1 else acc.store
    { store := stNext, added := acc.added, changed := changedNext, seen := seenNext }

/-- `models.IngestionReport`. -/
structure IngestReport where
  slicer : SlicerT
  version : Str
  profiles_processed : Nat
  added : List Str
  removed : List Str
  changed : List (Str × List Str)
  unchanged : Int

/-- `store.ProfileStore.ingest_profiles`: process each profile, detect
removed profiles from the files on disk, update the slicer metadata, and
build the report.  (Python's `seen_keys` is a set and `removed` is built by
iterating the on-disk key set; only membership in `removed` is
order-independent, and the claims use only membership.) -/
def ingestProfiles (st : Store) (slicer : SlicerT) (version : Str)
    (profiles : List ParsedProfileL) : Store × IngestReport :=
  let acc := profiles.foldl (processProfile slicer version) ⟨st, [], [], []⟩
  let allKeys := listProfileKeys acc.store slicer
  let removed := allKeys.filter (fun k => !(acc.seen.contains k))
  let stFinal := updateMeta acc.store slicer version
  (stFinal,
    ⟨slicer, version, profiles.length, acc.added, removed, acc.changed,
      (profiles.length : Int) - acc.added.length - acc.changed.length⟩)

/-!  ### Resource store (`resources.py`)  -/

/-- A manifest entry `{filename, size, type}`. -/
structure ResEntry where
  filename : Str
  size : Nat
  rtype : Str
deriving DecidableEq

/-- The resource directory: the `_manifest.json` content (a dict keyed by
hex digest) and the resource files on disk.  A resource file
`{hash}.{type}` is identified by the pair `(hash, type)` — hex digests
contain no `.`, so pair equality coincides with file-name equality. -/
structure ResourceState where
  manifest : List (Str × ResEntry)
  files : List (Str × Str)
deriving DecidableEq

/-- `resources.ResourceStore.get_path`: the file named by the manifest
entry, if both the entry and the file exist. -/
def resGetPath (st : ResourceState) (h : Str) : Option (Str × Str) :=
  match dictLookup st.manifest h with
  | Option.none => Option.none
  | some e => if st.files.contains (h, e.rtype) then some (h, e.rtype) else Option.none

/-- One iteration of the `gc` loop for a manifest key `h` that is not
referenced: unlink the file (when it exists), delete the manifest entry,
record the removal. -/
def resGcStep (acc : ResourceState × List Str) (h : Str) : ResourceState × List Str :=
  let st0 := acc.1
  let filesNext :=
    match resGetPath st0 h with
    | some p => st0.files.filter (fun f => decide (f ≠ p))
    | Option.none => st0.files
  let manifestNext := st0.manifest.filter (fun e => decide (e.1 ≠ h))
  (⟨manifestNext, filesNext⟩, acc.2 ++ [h])

/-- `resources.ResourceStore.gc`: iterate over a snapshot of the manifest
keys and collect every unreferenced entry.  Returns the new state and the
removed hashes. -/
def resGc (st : ResourceState) (referenced : List Str) : ResourceState × List Str :=
  st.manifest.foldl
    (fun acc kv => if referenced.contains kv.1 then acc else resGcStep acc kv.1)
    (st, [])

/-- The `gc` fold over an arbitrary remaining manifest snapshot, exposed
for the inductive proofs (`resGc st r = resGcLoop r st.manifest (st, [])`
by definition). -/
def resGcLoop (referenced : List Str) (l : List (Str × ResEntry))
    (acc : ResourceState × List Str) : ResourceState × List Str :=
  l.foldl (fun a kv => if referenced.contains kv.1 then a else resGcStep a kv.1) acc

/-- A resource directory with two tracked files, of which only `aa` will be
referenced. -/
def resStateW : ResourceState :=
  ⟨[(strOf "aa", ⟨strOf "aa.png", 3, strOf "png"⟩),
    (strOf "bb", ⟨strOf "bb.png", 4, strOf "png"⟩)],
   [(strOf "aa", strOf "png"), (strOf "bb", strOf "png")]⟩

/-!  ### Condition evaluator (`conditions.py`)  -/

/-- Python runtime exceptions raised (or re-raised) during condition
evaluation.  `fuelExhausted` is the out-of-fuel marker of the fuelled
rewriting loop; the supplied fuel always suffices (see
`evalExpressionStr`), so it never occurs. -/
inductive EvalErr where
  | unbalancedParens | indexError | typeError | regexError | fuelExhausted
deriving DecidableEq

/-- A logical connective collected by `_evaluate_expression` (only `and`
and `or` words are ever collected). -/
inductive LogicalOp where
  | and | or
deriving DecidableEq

/-- Combination step of the fold in `_evaluate_expression`. -/
def applyLogicalOp : LogicalOp → Bool → Bool → Bool
  | .and, a, b => a && b
  | .or, a, b => a || b

/-- The loop of `conditions._evaluate_expression` over the remaining terms,
pairing each with its preceding operator: evaluate the term, apply the
short-circuit rule, otherwise fold into the running value. -/
def evalLoopGo (allAnd allOr : Bool) (evalTerm : α → Except EvalErr Bool)
    (prev : Bool) : List (LogicalOp × α) → Except EvalErr Bool
  | [] => .ok prev
  | (op, t) :: rest => do
    let ret ← evalTerm t
    if allAnd && !ret then .ok false
    else if allOr && ret then .ok true
    else evalLoopGo allAnd allOr evalTerm (applyLogicalOp op prev ret) rest

/-- The term loop of `conditions._evaluate_expression` (lines computing
`all_and`/`all_or` and folding the parts):  the first part seeds the
running value after its own short-circuit check; each later part is paired
with `operators[idx-1]`.  An empty part list cannot arise (`re.split`
always yields at least one part); Python would return `None` there and the
model returns `false`. -/
def evalLoop (evalTerm : α → Except EvalErr Bool) (parts : List α)
    (ops : List LogicalOp) : Except EvalErr Bool :=
  let allAnd := !(ops.contains .or)
  let allOr := !(ops.contains .and)
  match parts with
  | [] => .ok false
  | p :: rest => do
    let ret ← evalTerm p
    if allAnd && !ret then .ok false
    else if allOr && ret then .ok true
    else evalLoopGo allAnd allOr evalTerm ret (ops.zip rest)

/-- `re.split(r" and | && | or | \|\|", condition)` — note the source
pattern's last alternative ` ||` has no trailing space. -/
def splitLogicalPartsF : Nat → Str → List Str
  | 0, s => [s]
  | fuel + 1, s =>
    match s with
    | [] => [[]]
    | c :: rest =>
      if strStarts (strOf " and ") (c :: rest) then [] :: splitLogicalPartsF fuel (rest.drop 4)
      else if strStarts (strOf " && ") (c :: rest) then [] :: splitLogicalPartsF fuel (rest.drop 3)
      else if strStarts (strOf " or ") (c :: rest) then [] :: splitLogicalPartsF fuel (rest.drop 3)
      else if strStarts (strOf " ||") (c :: rest) then [] :: splitLogicalPartsF fuel (rest.drop 2)
      else match splitLogicalPartsF fuel rest with
        | [] => [[c]]
        | t :: ts => (c :: t) :: ts

/-- `re.split(r" and | && | or | \|\|", condition)` via its fuelled worker
(the string shrinks at every step, so fuel `s.length + 1` always
suffices). -/
def splitLogicalParts (s : Str) : List Str := splitLogicalPartsF (s.length + 1) s

/-- Operator collection of `_evaluate_expression`: whitespace-split words
that are `and`/`&&`/`or`/`||`, in order. -/
def extractLogicalOps (s : Str) : List LogicalOp :=
  (strWords s).filterMap (fun w =>
    if w == strOf "and" || w == strOf "&&" then some LogicalOp.and
    else if w == strOf "or" || w == strOf "||" then some LogicalOp.or
    else Option.none)

/-- `conditions._OPERATORS`, in match order. -/
def opList : List Str :=
  [strOf "=~", strOf "!~", strOf "==", strOf "!=",
   strOf ">=", strOf "<=", strOf ">", strOf "<"]

/-- Substring containment (`op in condition`) for a pattern known to be
non-empty. -/
def strHasSubStr (pat s : Str) : Bool :=
  match pat with
  | [] => true
  | c :: t => strHasSub c t s

/-- `condition.split(op)`. -/
def opSplit (op s : Str) : List Str :=
  match op with
  | [] => [s]
  | c :: t => splitOnSub c t s

/-- The first operator of `_OPERATORS` occurring in the condition. -/
def findOp (cond : Str) : Option Str :=
  opList.find? (fun op => strHasSubStr op cond)

/-- Python `s.endswith(pat)`. -/
def strEnds (pat s : Str) : Bool := strStarts pat.reverse s.reverse

/-- `remove_quotes` inside `_evaluate_single_condition`: strip, then drop
one surrounding pair of double quotes. -/
def removeQuotes (s : Str) : Str :=
  let t := strTrim s
  if strStarts ['"'] t && strEnds ['"'] t then (t.drop 1).dropLast else t

/-- `conditions._evaluate_single_condition`, parameterized by the variable
lookup (`get_value`, a callable in the source too) and by the
`re.match(pattern, string, re.DOTALL)` oracle `reM` (regular-expression
matching is external-library behaviour; it may raise `re.error` on an
ill-formed pattern, hence the `Except`). -/
def evalSingleCond (gv : Str → Except EvalErr PyValue)
    (reM : Str → Str → Except EvalErr Bool) (cond0 : Str) : Except EvalErr Bool :=
  let cond := strTrim cond0
  if strLower cond == strOf "true" then .ok true
  else if strLower cond == strOf "false" then .ok false
  else
    match findOp cond with
    | Option.none => do
      let v ← gv cond
      .ok (pyEqB v (.str (strOf "1")) || pyEqB v (.str (strOf "true")))
    | some op =>
      match opSplit op cond with
      | [l, r] => do
        let v ← gv (strTrim l)
        match v with
        | .none => .ok false
        | _ =>
          if op == strOf "=~" then do
            let m ← reM (strStripChars (strOf "/") (strTrim r)) (pyStr v)
            .ok m
          else if op == strOf "!~" then do
            let m ← reM (strStripChars (strOf "/") (strTrim r)) (pyStr v)
            .ok (!m)
          else if op == strOf "==" then .ok (pyStr v == removeQuotes r)
          else if op == strOf "!=" then .ok (pyStr v != removeQuotes r)
          else
            match pyFloat v, parseFloat (strTrim r) with
            | some a, some b =>
              if op == strOf ">=" then .ok (decide (a ≥ b))
              else if op == strOf "<=" then .ok (decide (a ≤ b))
              else if op == strOf ">" then .ok (decide (a > b))
              else if op == strOf "<" then .ok (decide (a < b))
              else .ok false
            | _, _ => .ok false
      | _ => .ok false

/-- One term of the split: strip, handle a leading `! ` negation, evaluate
as a single condition. -/
def evalTermStr (gv : Str → Except EvalErr PyValue)
    (reM : Str → Str → Except EvalErr Bool) (part0 : Str) : Except EvalErr Bool :=
  let part := strTrim part0
  if strStarts (strOf "! ") part then do
    let r ← evalSingleCond gv reM (part.drop 2)
    .ok (!r)
  else evalSingleCond gv reM part

/-- The parenthesis-free tail of `_evaluate_expression`: split the
condition on logical operators and run the term loop. -/
def evalFlat (gv : Str → Except EvalErr PyValue)
    (reM : Str → Str → Except EvalErr Bool) (cond : Str) : Except EvalErr Bool :=
  evalLoop (evalTermStr gv reM) (splitLogicalParts cond) (extractLogicalOps cond)

/-- Phase B of `conditions._find_first_parenthesis_set`: inside a
parenthesis group (`depth ≥ 1`), accumulating the group's interior.
`p2`/`p1` are the two preceding characters (for detecting a regex literal
after `=~`/`!~`); returns the decomposition (before, interior, after) when
the group closes. -/
def fpGoB : Str → Option Char → Option Char → Bool → Int → Str → Str →
    Option (Str × Str × Str)
  | [], _, _, _, _, _, _ => Option.none
  | c :: rest, p2, p1, inRegex, depth, beforeRev, innerRev =>
    let inRegexNext :=
      if c = '/' then
        if inRegex then false
        else if (p2 = some '=' ∧ p1 = some '~') ∨ (p2 = some '!' ∧ p1 = some '~') then true
        else inRegex
      else inRegex
    if inRegexNext then fpGoB rest p1 (some c) inRegexNext depth beforeRev (c :: innerRev)
    else if c = '(' then fpGoB rest p1 (some c) inRegexNext (depth + 1) beforeRev (c :: innerRev)
    else if c = ')' then
      if depth = 1 then some (beforeRev.reverse, innerRev.reverse, rest)
      else fpGoB rest p1 (some c) inRegexNext (depth - 1) beforeRev (c :: innerRev)
    else fpGoB rest p1 (some c) inRegexNext depth beforeRev (c :: innerRev)

/-- Phase A of `conditions._find_first_parenthesis_set`: not inside a
group; the running depth is `≤ 0` (stray closing parentheses drive it
negative, exactly as in the source, where `start_idx` is only set when a
`(` is seen at depth 0). -/
def fpGoA : Str → Option Char → Option Char → Bool → Int → Str →
    Option (Str × Str × Str)
  | [], _, _, _, _, _ => Option.none
  | c :: rest, p2, p1, inRegex, depth, beforeRev =>
    let inRegexNext :=
      if c = '/' then
        if inRegex then false
        else if (p2 = some '=' ∧ p1 = some '~') ∨ (p2 = some '!' ∧ p1 = some '~') then true
        else inRegex
      else inRegex
    if inRegexNext then fpGoA rest p1 (some c) inRegexNext depth (c :: beforeRev)
    else if c = '(' then
      if depth = 0 then fpGoB rest p1 (some c) inRegexNext 1 beforeRev []
      else fpGoA rest p1 (some c) inRegexNext (depth + 1) (c :: beforeRev)
    else if c = ')' then fpGoA rest p1 (some c) inRegexNext (depth - 1) (c :: beforeRev)
    else fpGoA rest p1 (some c) inRegexNext depth (c :: beforeRev)

/-- `conditions._find_first_parenthesis_set`, returning the decomposition
`condition = before ++ "(" ++ interior ++ ")" ++ after` of the first
balanced parenthesis pair that does not lie inside a regex literal
(`None` when there is none). -/
def findFirstParenSet (s : Str) : Option (Str × Str × Str) :=
  fpGoA s Option.none Option.none false 0 []

/-- `str(True)` / `str(False)` — the text spliced into the condition by the
parenthesis-rewriting loop. -/
def pyBoolStr (b : Bool) : Str := if b then strOf "True" else strOf "False"

mutual
/-- `conditions._evaluate_expression`, fuelled: the parenthesis checks of
the entry, then the rewriting loop (`evalParenPass`), then the flat
split-and-fold.  Each recursive step either strictly decreases the number
of `(` or keeps it while switching phase once, so the fuel chosen by
`evalExpressionStr` is never exhausted. -/
def evalExprFuel (gv : Str → Except EvalErr PyValue)
    (reM : Str → Str → Except EvalErr Bool) : Nat → Str → Except EvalErr Bool
  | 0, _ => .error .fuelExhausted
  | fuel + 1, cond =>
    if cond.contains '(' then
      if countChar '(' cond ≠ countChar ')' cond then .error .unbalancedParens
      else evalParenPass gv reM fuel cond
    else if cond.contains ')' then .error .unbalancedParens
    else evalFlat gv reM cond

/-- The `while True` rewriting loop of `_evaluate_expression`: find the
first parenthesis group, evaluate its interior recursively, splice
`True`/`False` in its place, repeat; when no group remains, fall through to
the flat evaluation (without re-running the entry checks, as in the
source). -/
def evalParenPass (gv : Str → Except EvalErr PyValue)
    (reM : Str → Str → Except EvalErr Bool) : Nat → Str → Except EvalErr Bool
  | 0, _ => .error .fuelExhausted
  | fuel + 1, cond =>
    match findFirstParenSet cond with
    | Option.none => evalFlat gv reM cond
    | some (before, inner, after) => do
      let b ← evalExprFuel gv reM fuel inner
      evalParenPass gv reM fuel (before ++ pyBoolStr b ++ after)
end

/-- `conditions._evaluate_expression` with sufficient fuel (`2·#'(' + 2`
covers the worst interleaving of the two phases). -/
def evalExpressionStr (gv : Str → Except EvalErr PyValue)
    (reM : Str → Str → Except EvalErr Bool) (cond : Str) : Except EvalErr Bool :=
  evalExprFuel gv reM (2 * countChar '(' cond + 2) cond

/-- A printer configuration mapping. -/
abbrev Config := List (Str × PyValue)

/-- `\w` on the ASCII fragment. -/
def isWordChar (c : Char) : Bool := c.isAlphanum || c = '_'

/-- `re.fullmatch(r"(?P<key>\w+)(?:\[(?P<index>[0-9]+)])?", key)`:
the variable name and its optional numeric index. -/
def parseVarRef (s : Str) : Option (Str × Option Nat) :=
  let key := s.takeWhile isWordChar
  let rest := s.dropWhile isWordChar
  if key = [] then Option.none
  else match rest with
    | [] => some (key, Option.none)
    | '[' :: r2 =>
      let digits := r2.takeWhile Char.isDigit
      let r3 := r2.dropWhile Char.isDigit
      if digits ≠ [] ∧ r3 = [']'] then some (key, some (digitsVal digits))
      else Option.none
    | _ => Option.none

/-- `merged_data`: defaults (if any) overlaid with the printer data. -/
def mergedData (defaults : Option Config) (printerData : Config) : Config :=
  dictUpdate (defaults.getD []) printerData

/-- Python sequence indexing `value[i]` for the types that can reach it:
lists index positionally, strings yield one-character strings, everything
else raises. An out-of-range index raises `IndexError` — uncaught in the
source. -/
def pyIndex (v : PyValue) (i : Nat) : Except EvalErr PyValue :=
  match v with
  | .list xs =>
    match xs.get? i with
    | some x => .ok x
    | Option.none => .error .indexError
  | .str s =>
    match s.get? i with
    | some c => .ok (.str [c])
    | Option.none => .error .indexError
  | _ => .error .typeError

/-- The plain-name lookup used by the `num_extruders` branch: the source
recursively calls `get_value_from_config` on `extruders_count` /
`nozzle_diameter`; neither name re-enters the `num_extruders` branch, so
the recursion bottoms out in exactly this index-free lookup-and-unwrap. -/
def lookupBasic (slicer : Str) (merged : Config) (name : Str) : Option PyValue :=
  match parseVarRef name with
  | Option.none => Option.none
  | some (key, _) =>
    match dictLookup merged key with
    | Option.none => Option.none
    | some value =>
      if slicer ≠ strOf "prusaslicer" then
        match value with
        | .list [x] => some x
        | _ => some value
      else some value

/-- `get_value_from_config` inside `conditions.evaluate_printer_condition`:
resolve a `key` or `key[index]` reference against the merged configuration,
with the single-element-list unwrap (non-PrusaSlicer), the PrusaSlicer
string split for indexed references, and the synthetic `num_extruders`. -/
def getValueFromConfig (slicer : Str) (merged : Config) (name : Str) :
    Except EvalErr PyValue :=
  match parseVarRef name with
  | Option.none => .ok .none
  | some (key, idx) =>
    match dictLookup merged key with
    | some value =>
      match idx with
      | Option.none =>
        if slicer ≠ strOf "prusaslicer" then
          match value with
          | .list [x] => .ok x
          | _ => .ok value
        else .ok value
      | some i =>
        if slicer = strOf "prusaslicer" then
          match value with
          | .str s =>
            pyIndex (.list ((splitOnPred (fun c => c == ';' || c == ',') s).map PyValue.str)) i
          | _ => .error .typeError
        else pyIndex value i
    | Option.none =>
      if name = strOf "num_extruders" then
        match lookupBasic slicer merged (strOf "extruders_count") with
        | some v => .ok v
        | Option.none =>
          match lookupBasic slicer merged (strOf "nozzle_diameter") with
          | some (.str s) =>
            .ok (.int ((splitOnPred (fun c => c == ';' || c == ',') s).length))
          | some _ => .error .typeError
          | Option.none => .ok .none
      else .ok .none

/-- `conditions.evaluate_printer_condition`: the empty/whitespace guard,
the defaults merge, and the expression evaluation.  `reM` is the
`re.match` oracle passed through to the comparison layer. -/
def evaluatePrinterCondition (reM : Str → Str → Except EvalErr Bool)
    (condition : Str) (printerData : Config) (slicer : Str)
    (defaults : Option Config) : Except EvalErr Bool :=
  if (strTrim condition).isEmpty then .ok false
  else
    let merged := mergedData defaults printerData
    evalExpressionStr (getValueFromConfig slicer merged) reM condition

/-!  ### Fixtures: concrete inputs used by counterexample and witness
theorems  -/

/-- Exactly one of three propositions holds. -/
def ExactlyOne (p q r : Prop) : Prop :=
  (p ∧ ¬q ∧ ¬r) ∨ (¬p ∧ q ∧ ¬r) ∨ (¬p ∧ ¬q ∧ r)

/-- A stored profile whose history for `k` is recorded newest-first
(version `2` inserted before version `1`) — reachable by calling
`ingest_profiles` with versions out of order. -/
def outOfOrderProfile : StoredProfileL :=
  ⟨strOf "bambustudio", strOf "filament", strOf "n", strOf "BBL",
   strOf "1", strOf "2", Option.none, Option.none, Option.none,
   [(strOf "k", [(strOf "2", .int 1), (strOf "1", .int 2)])]⟩

/-- A stored profile whose `k` changed from JSON `true` (version 1) to JSON
`1` (version 2) — the store's own `_merge_version` records exactly this
history, since `_normalize` distinguishes `true` from `1`. -/
def boolIntProfile : StoredProfileL :=
  ⟨strOf "bambustudio", strOf "filament", strOf "n", strOf "BBL",
   strOf "1", strOf "2", Option.none, Option.none, Option.none,
   [(strOf "k", [(strOf "1", .bool true), (strOf "2", .int 1)])]⟩

/-- A parsed profile whose settings carry the metadata key
`renamed_from` (as OrcaSlicer raw profiles do). -/
def renamedFromProfile : ParsedProfileL :=
  ⟨.bambustudio, .filament, strOf "P", strOf "V",
   [(strOf "renamed_from", .str (strOf "Old"))],
   Option.none, Option.none, Option.none, Option.none⟩

/-- A stored profile `X` with one setting recorded at version `1`. -/
def profileX : StoredProfileL :=
  ⟨strOf "bambustudio", strOf "filament", strOf "X", strOf "BBL",
   strOf "1", strOf "1", Option.none, Option.none, Option.none,
   [(strOf "k", [(strOf "1", .int 5)])]⟩

/-- The path of `profileX`. -/
def pathX : PathKey := ⟨strOf "bambustudio", strOf "BBL", strOf "filament", strOf "X"⟩

/-- A store holding exactly `profileX`, ingested at version `1`. -/
def storeWithX : Store :=
  ⟨[(pathX, profileX)], [(strOf "bambustudio", ⟨[strOf "1"], some (strOf "1")⟩)]⟩

/-- A parsed profile `Y` carrying `renamed_from = "X"`. -/
def profileY : ParsedProfileL :=
  ⟨.bambustudio, .filament, strOf "Y", strOf "BBL",
   [(strOf "renamed_from", .str (strOf "X")), (strOf "k", .int 6)],
   Option.none, Option.none, Option.none, Option.none⟩

/-- The path of the successor profile `Y`. -/
def pathY : PathKey := ⟨strOf "bambustudio", strOf "BBL", strOf "filament", strOf "Y"⟩

/-- An unrelated parsed profile `W` (no rename, coordinates disjoint from
`X`). -/
def profileW : ParsedProfileL :=
  ⟨.bambustudio, .filament, strOf "W", strOf "BBL",
   [(strOf "k", .int 7)],
   Option.none, Option.none, Option.none, Option.none⟩


/-!  ## Lemmas

Generic facts about the dictionary model, then the version algebra, then
the per-claim developments.  -/

theorem dictLookup_insert_self [DecidableEq α] (d : List (α × β)) (k : α) (v : β) :
    dictLookup (dictInsert d k v) k = some v := by
  induction d with
  | nil => simp [dictInsert, dictLookup]
  | cons e rest ih =>
    by_cases h : e.1 = k
    · simp [dictInsert, dictLookup, h]
    · simp [dictInsert, dictLookup, h, ih]

theorem dictLookup_insert_ne [DecidableEq α] (d : List (α × β)) {k' k : α} (v : β)
    (h : k' ≠ k) : dictLookup (dictInsert d k' v) k = dictLookup d k := by
  induction d with
  | nil => simp [dictInsert, dictLookup, h]
  | cons e rest ih =>
    by_cases he : e.1 = k'
    · simp [dictInsert, dictLookup, he, h]
    · simp [dictInsert, dictLookup, he, ih]

theorem dictLookup_append [DecidableEq α] (d1 d2 : List (α × β)) (k : α) :
    dictLookup (d1 ++ d2) k = (dictLookup d1 k).or (dictLookup d2 k) := by
  induction d1 with
  | nil => simp [dictLookup]
  | cons e rest ih =>
    by_cases h : e.1 = k
    · simp [dictLookup, h]
    · simp [dictLookup, h, ih]

theorem dictLookup_filter_ne_self [DecidableEq α] (d : List (α × β)) (k : α) :
    dictLookup (d.filter (fun e => decide (e.1 ≠ k))) k = Option.none := by
  induction d with
  | nil => simp [dictLookup]
  | cons e rest ih =>
    by_cases h : e.1 = k
    · rw [List.filter_cons_of_neg (by simp [h])]
      exact ih
    · rw [List.filter_cons_of_pos (by simp [h]), dictLookup, if_neg h]
      exact ih

theorem dictLookup_filter_ne [DecidableEq α] (d : List (α × β)) {k' k : α}
    (h : k' ≠ k) :
    dictLookup (d.filter (fun e => decide (e.1 ≠ k'))) k = dictLookup d k := by
  induction d with
  | nil => simp [dictLookup]
  | cons e rest ih =>
    by_cases he : e.1 = k'
    · have hek : e.1 ≠ k := he ▸ h
      rw [List.filter_cons_of_neg (by simp [he]), dictLookup, if_neg hek]
      exact ih
    · rw [List.filter_cons_of_pos (by simp [he])]
      by_cases hk : e.1 = k
      · rw [dictLookup, if_pos hk, dictLookup, if_pos hk]
      · rw [dictLookup, if_neg hk, dictLookup, if_neg hk]
        exact ih

theorem mem_dictInsert [DecidableEq α] {d : List (α × β)} {k : α} {v : β} {x : α × β}
    (h : x ∈ dictInsert d k v) : x ∈ d ∨ x = (k, v) := by
  induction d with
  | nil => simpa [dictInsert] using h
  | cons e rest ih =>
    by_cases he : e.1 = k
    · rw [dictInsert, if_pos he] at h
      rcases List.mem_cons.mp h with h | h
      · right; rw [h, ← he]
      · left; exact List.mem_cons_of_mem _ h
    · rw [dictInsert, if_neg he] at h
      rcases List.mem_cons.mp h with h | h
      · left; exact h ▸ List.mem_cons_self _ _
      · rcases ih h with h | h
        · left; exact List.mem_cons_of_mem _ h
        · right; exact h

theorem dictLookup_some_mem [DecidableEq α] {d : List (α × β)} {k : α} {v : β}
    (h : dictLookup d k = some v) : (k, v) ∈ d := by
  induction d with
  | nil => simp [dictLookup] at h
  | cons e rest ih =>
    by_cases he : e.1 = k
    · rw [dictLookup, if_pos he] at h
      have hv : e.2 = v := by injection h
      have hev : e = (k, v) := by
        rw [Prod.ext_iff]; exact ⟨he, hv⟩
      exact List.mem_cons.mpr (Or.inl hev.symm)
    · rw [dictLookup, if_neg he] at h
      exact List.mem_cons_of_mem _ (ih h)

theorem dictLookup_isSome_iff_mem_keys [DecidableEq α] (d : List (α × β)) (k : α) :
    (dictLookup d k).isSome ↔ k ∈ d.map Prod.fst := by
  induction d with
  | nil => simp [dictLookup]
  | cons e rest ih =>
    by_cases he : e.1 = k
    · simp [dictLookup, he]
    · simp [dictLookup, he, ih, Ne.symm he]

theorem dictLookup_of_nodup_mem [DecidableEq α] {d : List (α × β)}
    (hnd : (d.map Prod.fst).Nodup) {k : α} {v : β} (h : (k, v) ∈ d) :
    dictLookup d k = some v := by
  induction d with
  | nil => simp at h
  | cons e rest ih =>
    rw [List.map_cons, List.nodup_cons] at hnd
    rcases List.mem_cons.mp h with h | h
    · rw [← h]; simp [dictLookup]
    · have hk : e.1 ≠ k := by
        intro he
        exact hnd.1 (he ▸ List.mem_map.mpr ⟨(k, v), h, rfl⟩)
      rw [dictLookup, if_neg hk]
      exact ih hnd.2 h

theorem dictInsert_eq_append_of_not_mem [DecidableEq α] {d : List (α × β)} {k : α}
    (h : k ∉ d.map Prod.fst) (v : β) : dictInsert d k v = d ++ [(k, v)] := by
  induction d with
  | nil => simp [dictInsert]
  | cons e rest ih =>
    have hk : e.1 ≠ k := by
      intro he; exact h (by simp [he])
    rw [dictInsert, if_neg hk, ih (by intro hm; exact h (by simp [hm]))]
    rfl

theorem countChar_eq_zero_iff (c : Char) (s : Str) :
    countChar c s = 0 ↔ c ∉ s := by
  rw [countChar, List.length_eq_zero, List.filter_eq_nil_iff]
  constructor
  · intro h hc
    exact absurd (beq_self_eq_true c) (by simpa using h c hc)
  · intro h a ha hab
    exact h ((eq_of_beq hab) ▸ ha)

theorem contains_of_countChar_ne (c : Char) (s : Str) (h : countChar c s ≠ 0) :
    s.contains c = true := by
  have hc : c ∈ s := by
    by_contra hc
    exact h ((countChar_eq_zero_iff c s).mpr hc)
  exact List.elem_eq_true_of_mem hc

theorem countChar_eq_zero_of_not_contains (c : Char) (s : Str)
    (h : s.contains c = false) : countChar c s = 0 := by
  refine (countChar_eq_zero_iff c s).mpr ?_
  intro hc
  have := List.elem_eq_true_of_mem hc
  rw [List.contains] at h
  rw [this] at h
  cases h

theorem vkCompare_self (a : List Int) : vkCompare a a = .eq := by
  induction a with
  | nil => rfl
  | cons x xs ih => simp [vkCompare, lt_irrefl, ih]

theorem vkCompare_eq_iff (a b : List Int) : vkCompare a b = .eq ↔ a = b := by
  induction a generalizing b with
  | nil => cases b <;> simp [vkCompare]
  | cons x xs ih =>
    cases b with
    | nil => simp [vkCompare]
    | cons y ys =>
      by_cases h1 : x < y
      · simp [vkCompare, h1]
        omega
      · by_cases h2 : y < x
        · simp [vkCompare, h1, h2]
          omega
        · have hxy : x = y := by omega
          simp [vkCompare, h1, h2, hxy, ih]

theorem vkCompare_swap (a b : List Int) : vkCompare b a = (vkCompare a b).swap := by
  induction a generalizing b with
  | nil => cases b <;> simp [vkCompare, Ordering.swap]
  | cons x xs ih =>
    cases b with
    | nil => simp [vkCompare, Ordering.swap]
    | cons y ys =>
      by_cases h1 : x < y
      · simp [vkCompare, h1, not_lt_of_gt h1, Ordering.swap]
      · by_cases h2 : y < x
        · simp [vkCompare, h1, h2, Ordering.swap]
        · simp [vkCompare, h1, h2, ih]

theorem vkCompare_trans_le : ∀ {a b c : List Int},
    vkCompare a b ≠ .gt → vkCompare b c ≠ .gt → vkCompare a c ≠ .gt := by
  intro a
  induction a with
  | nil =>
    intro b c _ _
    cases c <;> simp [vkCompare]
  | cons x xs ih =>
    intro b c hab hbc
    cases b with
    | nil => simp [vkCompare] at hab
    | cons y ys =>
      cases c with
      | nil => simp [vkCompare] at hbc
      | cons z zs =>
        simp only [vkCompare] at hab hbc ⊢
        split_ifs at hab hbc ⊢ <;>
          first
            | decide
            | omega
            | (exact absurd rfl hab)
            | (exact absurd rfl hbc)
            | (exact ih hab hbc)

theorem vkCompare_lt_trans_le : ∀ {a b c : List Int},
    vkCompare a b = .lt → vkCompare b c ≠ .gt → vkCompare a c = .lt := by
  intro a
  induction a with
  | nil =>
    intro b c hab hbc
    cases b with
    | nil => simp [vkCompare] at hab
    | cons y ys =>
      cases c with
      | nil => simp [vkCompare] at hbc
      | cons z zs => simp [vkCompare]
  | cons x xs ih =>
    intro b c hab hbc
    cases b with
    | nil => simp [vkCompare] at hab
    | cons y ys =>
      cases c with
      | nil => simp [vkCompare] at hbc
      | cons z zs =>
        simp only [vkCompare] at hab hbc ⊢
        split_ifs at hab hbc ⊢ <;>
          first
            | decide
            | omega
            | (exact absurd hab (by decide))
            | (exact absurd rfl hbc)
            | (exact ih hab hbc)

theorem vkLeB_iff {a b : List Int} : vkLeB a b = true ↔ vkCompare a b ≠ .gt := by
  unfold vkLeB
  rcases h : vkCompare a b with _ | _ | _ <;> decide

theorem vkLtB_iff {a b : List Int} : vkLtB a b = true ↔ vkCompare a b = .lt := by
  unfold vkLtB
  rcases h : vkCompare a b with _ | _ | _ <;> decide

theorem vkLeB_refl (a : List Int) : vkLeB a a = true := by
  rw [vkLeB_iff, vkCompare_self]
  decide

theorem vkLeB_total (a b : List Int) : vkLeB a b = true ∨ vkLeB b a = true := by
  rcases h : vkCompare a b with _ | _ | _
  · left; rw [vkLeB_iff, h]; decide
  · left; rw [vkLeB_iff, h]; decide
  · right
    have hs := vkCompare_swap a b
    rw [h] at hs
    rw [vkLeB_iff, hs]
    decide

theorem vkLeB_trans {a b c : List Int} (h1 : vkLeB a b = true) (h2 : vkLeB b c = true) :
    vkLeB a c = true := by
  rw [vkLeB_iff] at h1 h2 ⊢
  exact vkCompare_trans_le h1 h2

theorem vkLtB_of_not_leB {a b : List Int} (h : ¬ vkLeB a b = true) :
    vkLtB b a = true := by
  rw [vkLeB_iff] at h
  have hgt : vkCompare a b = .gt := by
    by_contra hne
    exact h hne
  have hs := vkCompare_swap a b
  rw [hgt] at hs
  rw [vkLtB_iff, hs]
  decide

theorem vkLtB_trans_leB {a b c : List Int} (h1 : vkLtB a b = true)
    (h2 : vkLeB b c = true) : vkLtB a c = true := by
  rw [vkLtB_iff] at h1 ⊢
  rw [vkLeB_iff] at h2
  exact vkCompare_lt_trans_le h1 h2

theorem vkLtB_ne {a b : List Int} (h : vkLtB a b = true) : a ≠ b := by
  intro hab
  rw [vkLtB_iff, hab, vkCompare_self] at h
  cases h

theorem vkLeB_of_ltB {a b : List Int} (h : vkLtB a b = true) : vkLeB a b = true := by
  rw [vkLtB_iff] at h
  rw [vkLeB_iff, h]
  decide

theorem insertVer_perm (x : Str) (l : List Str) :
    List.Perm (insertVer x l) (x :: l) := by
  induction l with
  | nil => simp [insertVer]
  | cons y ys ih =>
    rw [insertVer]
    by_cases h : vkLeB (versionKey y) (versionKey x) = true
    · rw [if_pos h]
      exact (ih.cons y).trans (List.Perm.swap x y ys)
    · rw [if_neg h]

theorem insertVer_sorted (x : Str) (l : List Str)
    (h : List.Pairwise (fun a b => vkLeB (versionKey a) (versionKey b) = true) l) :
    List.Pairwise (fun a b => vkLeB (versionKey a) (versionKey b) = true) (insertVer x l) := by
  induction l with
  | nil => simp [insertVer]
  | cons y ys ih =>
    rw [List.pairwise_cons] at h
    rw [insertVer]
    by_cases hle : vkLeB (versionKey y) (versionKey x) = true
    · rw [if_pos hle]
      rw [List.pairwise_cons]
      constructor
      · intro z hz
        rcases List.mem_cons.mp ((insertVer_perm x ys).mem_iff.mp hz) with hz | hz
        · rw [hz]; exact hle
        · exact h.1 z hz
      · exact ih h.2
    · rw [if_neg hle]
      have hlt := vkLtB_of_not_leB hle
      rw [List.pairwise_cons]
      refine ⟨?_, List.pairwise_cons.mpr h⟩
      intro z hz
      rcases List.mem_cons.mp hz with hz | hz
      · rw [hz]; exact vkLeB_of_ltB hlt
      · exact vkLeB_trans (vkLeB_of_ltB hlt) (h.1 z hz)

theorem insertVer_filter (k : List Int) (x : Str) (l : List Str)
    (h : List.Pairwise (fun a b => vkLeB (versionKey a) (versionKey b) = true) l) :
    (insertVer x l).filter (fun v => versionKey v == k)
      = l.filter (fun v => versionKey v == k)
        ++ (if versionKey x == k then [x] else []) := by
  induction l with
  | nil =>
    by_cases hk : (versionKey x == k) = true
    · simp [insertVer, hk]
    · simp [insertVer, hk]
  | cons y ys ih =>
    rw [List.pairwise_cons] at h
    rw [insertVer]
    by_cases hle : vkLeB (versionKey y) (versionKey x) = true
    · rw [if_pos hle]
      simp only [List.filter_cons]
      by_cases hy : (versionKey y == k) = true
      · simp only [hy, if_true, ih h.2, List.cons_append]
      · rw [Bool.not_eq_true] at hy
        simp only [hy, Bool.false_eq_true, if_false] at *
        exact ih h.2
    · rw [if_neg hle]
      have hlt := vkLtB_of_not_leB hle
      by_cases hk : (versionKey x == k) = true
      · have hxk : versionKey x = k := by simpa using hk
        have hnil : (y :: ys).filter (fun v => versionKey v == k) = [] := by
          rw [List.filter_eq_nil_iff]
          intro z hz
          have hzlt : vkLtB (versionKey x) (versionKey z) = true := by
            rcases List.mem_cons.mp hz with hz | hz
            · rw [hz]; exact hlt
            · exact vkLtB_trans_leB hlt (h.1 z hz)
          have hne := vkLtB_ne hzlt
          simp only [beq_iff_eq]
          intro hzk
          exact hne (by rw [hxk, hzk])
        rw [List.filter_cons, if_pos hk, hnil, if_pos hk]
        simp
      · rw [Bool.not_eq_true] at hk
        rw [List.filter_cons]
        simp only [hk, Bool.false_eq_true, if_false]
        simp

theorem sortVersionsAux_perm (l acc : List Str) :
    List.Perm (sortVersionsAux acc l) (acc ++ l) := by
  induction l generalizing acc with
  | nil => simp [sortVersionsAux]
  | cons x xs ih =>
    rw [sortVersionsAux]
    refine (ih (insertVer x acc)).trans ?_
    refine (List.Perm.append_right xs (insertVer_perm x acc)).trans ?_
    exact List.perm_middle.symm.trans (by simp)

theorem sortVersionsAux_sorted (l acc : List Str)
    (h : List.Pairwise (fun a b => vkLeB (versionKey a) (versionKey b) = true) acc) :
    List.Pairwise (fun a b => vkLeB (versionKey a) (versionKey b) = true)
      (sortVersionsAux acc l) := by
  induction l generalizing acc with
  | nil => exact h
  | cons x xs ih => exact ih _ (insertVer_sorted x acc h)

theorem sortVersionsAux_filter (k : List Int) (l acc : List Str)
    (h : List.Pairwise (fun a b => vkLeB (versionKey a) (versionKey b) = true) acc) :
    (sortVersionsAux acc l).filter (fun v => versionKey v == k)
      = acc.filter (fun v => versionKey v == k)
        ++ l.filter (fun v => versionKey v == k) := by
  induction l generalizing acc with
  | nil => simp [sortVersionsAux]
  | cons x xs ih =>
    rw [sortVersionsAux, ih _ (insertVer_sorted x acc h), insertVer_filter k x acc h,
      List.filter_cons]
    by_cases hk : (versionKey x == k) = true
    · simp [hk]
    · rw [Bool.not_eq_true] at hk
      simp [hk]

/-- C4 (counterexample): the claim's trichotomy — "exactly one of
`version_key(a) < version_key(b)`, `a == b`, `version_key(a) >
version_key(b)`" — fails for the normalized version strings `"1.0"` and
`"1_0"`: their version keys are equal while the strings differ, so none of
the three alternatives holds. -/
theorem c4_trichotomy_counterexample :
    normalizeVersion (strOf "1.0") = strOf "1.0"
    ∧ normalizeVersion (strOf "1_0") = strOf "1_0"
    ∧ ¬ ExactlyOne
        (vkLtB (versionKey (strOf "1.0")) (versionKey (strOf "1_0")) = true)
        (strOf "1.0" = strOf "1_0")
        (vkLtB (versionKey (strOf "1_0")) (versionKey (strOf "1.0")) = true) := by
  refine ⟨rfl, rfl, ?_⟩
  rw [ExactlyOne]
  decide

/-- C4 (amended): the version-key comparison is a total preorder on version
strings and trichotomous on the keys: for every pair of version strings,
exactly one of `version_key(a) < version_key(b)`,
`version_key(a) = version_key(b)`, `version_key(a) > version_key(b)` holds
(the middle alternative is key equality, not string equality — see the
counterexample); and `sort_versions` is a stable total sort by the key: its
output is a permutation of the input, pairwise ordered under `≤` on keys,
and every fibre of `version_key` keeps its original order. -/
theorem c4_version_order_amended :
    (∀ a b : Str, ExactlyOne
        (vkLtB (versionKey a) (versionKey b) = true)
        (versionKey a = versionKey b)
        (vkLtB (versionKey b) (versionKey a) = true))
    ∧ (∀ l : List Str,
        List.Perm (sortVersions l) l
        ∧ List.Pairwise (fun x y => vkLeB (versionKey x) (versionKey y) = true)
            (sortVersions l)
        ∧ ∀ k : List Int, (sortVersions l).filter (fun v => versionKey v == k)
            = l.filter (fun v => versionKey v == k)) := by
  constructor
  · intro a b
    rcases h : vkCompare (versionKey a) (versionKey b) with _ | _ | _
    · refine Or.inl ⟨by rw [vkLtB_iff]; exact h, ?_, ?_⟩
      · intro he
        rw [he, vkCompare_self] at h
        cases h
      · rw [vkLtB_iff]
        have hs := vkCompare_swap (versionKey a) (versionKey b)
        rw [h] at hs
        rw [hs]
        decide
    · refine Or.inr (Or.inl ⟨?_, (vkCompare_eq_iff _ _).mp h, ?_⟩)
      · rw [vkLtB_iff, h]
        decide
      · have he := (vkCompare_eq_iff _ _).mp h
        rw [vkLtB_iff, ← he, vkCompare_self]
        decide
    · refine Or.inr (Or.inr ⟨?_, ?_, ?_⟩)
      · rw [vkLtB_iff, h]
        decide
      · intro he
        rw [he, vkCompare_self] at h
        cases h
      · rw [vkLtB_iff]
        have hs := vkCompare_swap (versionKey a) (versionKey b)
        rw [h] at hs
        exact hs
  · intro l
    refine ⟨?_, ?_, ?_⟩
    · simpa using sortVersionsAux_perm l []
    · exact sortVersionsAux_sorted l [] (by simp)
    · intro k
      simpa using sortVersionsAux_filter k l [] (by simp)

/-- C10: `evaluate_printer_condition` returns `False` — without raising and
without consulting the printer configuration or the defaults — whenever the
condition string is empty or consists only of whitespace. -/
theorem c10_empty_condition_false (reM : Str → Str → Except EvalErr Bool)
    (condition : Str) (printerData : Config) (slicer : Str)
    (defaults : Option Config) (h : strTrim condition = []) :
    evaluatePrinterCondition reM condition printerData slicer defaults
      = .ok false := by
  rw [evaluatePrinterCondition, if_pos (by rw [h]; rfl)]

/-- C10 witness: a whitespace-only condition evaluates to `False` against a
non-trivial configuration. -/
theorem c10_empty_condition_false_witness :
    strTrim (strOf "  ") = []
    ∧ evaluatePrinterCondition (fun _ _ => .ok true) (strOf "  ")
        [(strOf "printer_model", .str (strOf "X1"))] (strOf "prusaslicer")
        (some [(strOf "nozzle_diameter", .str (strOf "0.4"))]) = .ok false :=
  ⟨by decide, c10_empty_condition_false (fun _ _ => .ok true) (strOf "  ")
    [(strOf "printer_model", .str (strOf "X1"))] (strOf "prusaslicer")
    (some [(strOf "nozzle_diameter", .str (strOf "0.4"))]) (by decide)⟩

theorem foldl_keep_last {α β : Type} (p : α → Bool) (f : α → β) (l : List α)
    (init : β) :
    l.foldl (fun r x => if p x then f x else r) init
      = match (l.filter p).getLast? with
        | some x => f x
        | Option.none => init := by
  induction l generalizing init with
  | nil => simp
  | cons x xs ih =>
    rw [List.foldl_cons, List.filter_cons]
    by_cases hp : p x = true
    · rw [if_pos hp, if_pos hp]
      cases hx : xs.filter p with
      | nil =>
        rw [ih, hx]
        simp [List.getLast?]
      | cons a as =>
        rw [ih, hx, List.getLast?_cons_cons]
        rfl
    · rw [Bool.not_eq_true] at hp
      rw [hp]
      simp only [Bool.false_eq_true, if_false]
      exact ih init

theorem maxFold_sorted_getLast (l : List (Str × PyValue))
    (h : List.Pairwise (fun a b => vkLtB (versionKey a.1) (versionKey b.1) = true) l) :
    ∀ b : Option (Str × PyValue),
      (∀ x ∈ l, ∀ bb, b = some bb → vkLtB (versionKey bb.1) (versionKey x.1) = true) →
      l.foldl
        (fun best kv =>
          match best with
          | Option.none => some kv
          | some bb => if vkLtB (versionKey bb.1) (versionKey kv.1) then some kv else best)
        b
      = l.getLast?.or b := by
  induction l with
  | nil => intro b _; simp
  | cons y ys ih =>
    intro b hb
    rw [List.pairwise_cons] at h
    rw [List.foldl_cons]
    have hnext : ∀ x ∈ ys, ∀ bb : Str × PyValue, some y = some bb →
        vkLtB (versionKey bb.1) (versionKey x.1) = true := by
      intro x hx bb hbb
      injection hbb with hbb
      rw [← hbb]
      exact h.1 x hx
    have hlast : ys.getLast?.or (some y) = (y :: ys).getLast?.or b := by
      cases hy : ys.getLast? with
      | none =>
        rw [List.getLast?_eq_none_iff] at hy
        rw [hy]
        rfl
      | some z =>
        cases hys : ys with
        | nil => rw [hys] at hy; cases hy
        | cons a as =>
          rw [hys] at hy
          rw [List.getLast?_cons_cons, hy]
          rfl
    cases b with
    | none =>
      show List.foldl _ (some y) ys = (y :: ys).getLast?.or Option.none
      rw [ih h.2 (some y) hnext]
      exact hlast
    | some bb =>
      have hlt := hb y (List.mem_cons_self y ys) bb rfl
      show List.foldl _
        (if vkLtB (versionKey bb.1) (versionKey y.1) = true then some y else some bb) ys
        = (y :: ys).getLast?.or (some bb)
      rw [if_pos hlt, ih h.2 (some y) hnext]
      exact hlast

/-- C2 (counterexample): a `StoredProfile` whose history for `k` is recorded
out of ascending order (version `2` before version `1`, reachable by
ingesting versions newest-first): `get_at_version("k", "2")` returns the
value of the *last recorded* entry whose version is `≤ 2` — the value at
version `1` — not the value at the greatest such version `2`, refuting the
claim as stated. -/
theorem c2_insertion_order_counterexample :
    getAtVersion outOfOrderProfile (strOf "k") (strOf "2") = .int 2
    ∧ specGetAtVersion outOfOrderProfile (strOf "k") (strOf "2") = .int 1
    ∧ getAtVersion outOfOrderProfile (strOf "k") (strOf "2")
        ≠ specGetAtVersion outOfOrderProfile (strOf "k") (strOf "2") := by
  refine ⟨rfl, rfl, ?_⟩
  have h1 : getAtVersion outOfOrderProfile (strOf "k") (strOf "2") = .int 2 := rfl
  have h2 : specGetAtVersion outOfOrderProfile (strOf "k") (strOf "2") = .int 1 := rfl
  rw [h1, h2]
  simp

/-- C2 (amended): whenever the key's recorded history is strictly ascending
in the version ordering — which ingestion oldest-to-newest produces —
`get_at_version(k, Q)` returns the value recorded at the greatest version
`≤ Q` (the spec-modelled `specGetAtVersion`), and it returns `None` when
the key is absent or no recorded version is `≤ Q`.  In general (unsorted
histories) it returns the last entry in recorded order among those `≤ Q`. -/
theorem c2_get_at_version_amended (sp : StoredProfileL) (key version : Str)
    (h : List.Pairwise (fun a b => vkLtB (versionKey a.1) (versionKey b.1) = true)
      ((dictLookup sp.settings key).getD [])) :
    getAtVersion sp key version = specGetAtVersion sp key version
    ∧ ((∀ e ∈ (dictLookup sp.settings key).getD [],
          vkLeB (versionKey e.1) (versionKey version) = false)
        → getAtVersion sp key version = .none) := by
  constructor
  · rw [getAtVersion, specGetAtVersion]
    cases hl : dictLookup sp.settings key with
    | none => rfl
    | some versions =>
      rw [hl] at h
      simp only [Option.getD] at h
      dsimp only
      rw [foldl_keep_last (fun kv => vkLeB (versionKey kv.1) (versionKey version))
        Prod.snd versions PyValue.none]
      have hsorted : List.Pairwise
          (fun a b => vkLtB (versionKey a.1) (versionKey b.1) = true)
          (versions.filter (fun kv => vkLeB (versionKey kv.1) (versionKey version))) :=
        List.Pairwise.sublist (List.filter_sublist versions) h
      rw [maxFold_sorted_getLast _ hsorted Option.none (by intro x _ bb hbb; cases hbb)]
      cases hfin : (versions.filter
          (fun kv => vkLeB (versionKey kv.1) (versionKey version))).getLast? with
      | none => rfl
      | some kv => rfl
  · intro hall
    rw [getAtVersion]
    cases hl : dictLookup sp.settings key with
    | none => rfl
    | some versions =>
      rw [hl] at hall
      simp only [Option.getD] at hall
      dsimp only
      rw [foldl_keep_last (fun kv => vkLeB (versionKey kv.1) (versionKey version))
        Prod.snd versions PyValue.none]
      have : versions.filter (fun kv => vkLeB (versionKey kv.1) (versionKey version)) = [] := by
        rw [List.filter_eq_nil_iff]
        intro e he
        rw [hall e he]
        simp
      rw [this]
      rfl

/-- C2 witness: on a profile whose history for `k` is strictly ascending
(`true` at version 1, `1` at version 2), `get_at_version` agrees with the
greatest-version reading at a concrete query. -/
theorem c2_get_at_version_amended_witness :
    List.Pairwise (fun a b => vkLtB (versionKey a.1) (versionKey b.1) = true)
      ((dictLookup boolIntProfile.settings (strOf "k")).getD [])
    ∧ getAtVersion boolIntProfile (strOf "k") (strOf "3")
        = specGetAtVersion boolIntProfile (strOf "k") (strOf "3") :=
  ⟨by decide,
    (c2_get_at_version_amended boolIntProfile (strOf "k") (strOf "3") (by decide)).1⟩

/-- C5 (counterexample): `changed_settings` judges difference by Python
`!=`, not by the canonical-JSON normalization the claim states.  On a
profile whose `k` went from JSON `true` to JSON `1` — a history the store
itself records, because `_normalize` distinguishes `"true"` from `"1"` —
the two values normalize differently, yet `changed_settings` reports no
change because `True == 1` in Python. -/
theorem c5_normalization_counterexample :
    changedSettings boolIntProfile (strOf "1") (strOf "2") = []
    ∧ specChangedSettings boolIntProfile (strOf "1") (strOf "2")
        = [(strOf "k", (.bool true, .int 1))]
    ∧ pyNormalize (getAtVersion boolIntProfile (strOf "k") (strOf "1"))
        ≠ pyNormalize (getAtVersion boolIntProfile (strOf "k") (strOf "2")) := by
  refine ⟨rfl, rfl, ?_⟩
  intro h
  have h1 : pyNormalize (getAtVersion boolIntProfile (strOf "k") (strOf "1"))
      = strOf "true" := rfl
  have h2 : pyNormalize (getAtVersion boolIntProfile (strOf "k") (strOf "2"))
      = strOf "1" := rfl
  rw [h1, h2] at h
  simp [strOf] at h

/-- C5 (amended): for a `StoredProfile` with distinct setting keys,
`changed_settings(V₁, V₂)` contains exactly those keys whose
`get_at_version` values at `V₁` and `V₂` differ under Python equality
(`!=`, under which booleans equal the numbers 0/1, numeric types compare
by value, mapping key order is insignificant and list order significant) —
each paired with both values; keys with equal values (including all keys
absent from the profile) are absent from the result. -/
theorem c5_changed_settings_amended (sp : StoredProfileL) (fromV toV : Str)
    (hnd : (sp.settings.map Prod.fst).Nodup) (k : Str) :
    dictLookup (changedSettings sp fromV toV) k
      = if pyEqB (getAtVersion sp k fromV) (getAtVersion sp k toV) then Option.none
        else some (getAtVersion sp k fromV, getAtVersion sp k toV) := by
  rw [changedSettings]
  have aux : ∀ ss : List (Str × List (Str × PyValue)), (ss.map Prod.fst).Nodup →
      dictLookup (ss.filterMap (fun kv =>
        let oldVal := getAtVersion sp kv.1 fromV
        let newVal := getAtVersion sp kv.1 toV
        if pyEqB oldVal newVal then Option.none else some (kv.1, (oldVal, newVal)))) k
      = if (dictLookup ss k).isSome then
          (if pyEqB (getAtVersion sp k fromV) (getAtVersion sp k toV) then Option.none
           else some (getAtVersion sp k fromV, getAtVersion sp k toV))
        else Option.none := by
    intro ss
    induction ss with
    | nil => intro _; simp [dictLookup]
    | cons kv rest ih =>
      intro hnd2
      rw [List.map_cons, List.nodup_cons] at hnd2
      rw [List.filterMap_cons]
      dsimp only
      by_cases hk : kv.1 = k
      · have hrest : (dictLookup rest k).isSome = false := by
          rw [Bool.eq_false_iff]
          intro hs
          exact hnd2.1 (hk ▸ (dictLookup_isSome_iff_mem_keys rest k).mp hs)
        by_cases hpe : pyEqB (getAtVersion sp kv.1 fromV) (getAtVersion sp kv.1 toV) = true
        · rw [if_pos hpe, ih hnd2.2, hrest]
          rw [hk] at hpe
          rw [dictLookup, if_pos hk]
          simp [hpe]
        · rw [if_neg hpe, dictLookup, if_pos hk, dictLookup, if_pos hk]
          simp only [Option.isSome_some, if_true]
          rw [hk] at hpe
          rw [if_neg hpe, hk]
      · by_cases hpe : pyEqB (getAtVersion sp kv.1 fromV) (getAtVersion sp kv.1 toV) = true
        · rw [if_pos hpe, ih hnd2.2, dictLookup, if_neg hk]
        · rw [if_neg hpe, dictLookup, if_neg hk, ih hnd2.2, dictLookup, if_neg hk]
  rw [aux sp.settings hnd]
  by_cases hs : (dictLookup sp.settings k).isSome = true
  · rw [if_pos hs]
  · rw [if_neg hs]
    have hnone : dictLookup sp.settings k = Option.none := by
      cases hd : dictLookup sp.settings k with
      | none => rfl
      | some v => rw [hd] at hs; simp at hs
    have h1 : getAtVersion sp k fromV = .none := by rw [getAtVersion, hnone]
    have h2 : getAtVersion sp k toV = .none := by rw [getAtVersion, hnone]
    rw [h1, h2]
    rfl

/-- C5 witness: on the `true`-to-`1` profile, the lookup characterization
holds at the key `k` and at an absent key. -/
theorem c5_changed_settings_amended_witness :
    (boolIntProfile.settings.map Prod.fst).Nodup
    ∧ dictLookup (changedSettings boolIntProfile (strOf "1") (strOf "2")) (strOf "k")
        = if pyEqB (getAtVersion boolIntProfile (strOf "k") (strOf "1"))
              (getAtVersion boolIntProfile (strOf "k") (strOf "2"))
          then Option.none
          else some (getAtVersion boolIntProfile (strOf "k") (strOf "1"),
            getAtVersion boolIntProfile (strOf "k") (strOf "2")) :=
  ⟨by decide,
    c5_changed_settings_amended boolIntProfile (strOf "1") (strOf "2") (by decide)
      (strOf "k")⟩

theorem evalLoopGo_all_and (pairs : List (LogicalOp × Bool))
    (hops : ∀ pr ∈ pairs, pr.1 = LogicalOp.and) :
    ∀ prev, evalLoopGo true false (fun b => Except.ok b) prev pairs
      = .ok (prev && (pairs.map Prod.snd).all id) := by
  induction pairs with
  | nil => intro prev; simp [evalLoopGo]
  | cons pr rest ih =>
    intro prev
    obtain ⟨op, b⟩ := pr
    have hop : op = LogicalOp.and := hops (op, b) (List.mem_cons_self _ _)
    cases b with
    | false => simp [evalLoopGo, Bind.bind, Except.bind]
    | true =>
      have ihr := ih (fun x hx => hops x (List.mem_cons_of_mem _ hx))
      simp [evalLoopGo, Bind.bind, Except.bind, hop, applyLogicalOp, ihr]

theorem evalLoopGo_all_or (pairs : List (LogicalOp × Bool))
    (hops : ∀ pr ∈ pairs, pr.1 = LogicalOp.or) :
    ∀ prev, evalLoopGo false true (fun b => Except.ok b) prev pairs
      = .ok (prev || (pairs.map Prod.snd).any id) := by
  induction pairs with
  | nil => intro prev; simp [evalLoopGo]
  | cons pr rest ih =>
    intro prev
    obtain ⟨op, b⟩ := pr
    have hop : op = LogicalOp.or := hops (op, b) (List.mem_cons_self _ _)
    cases b with
    | true => simp [evalLoopGo, Bind.bind, Except.bind]
    | false =>
      have ihr := ih (fun x hx => hops x (List.mem_cons_of_mem _ hx))
      simp [evalLoopGo, Bind.bind, Except.bind, hop, applyLogicalOp, ihr]

theorem evalLoopGo_mixed (pairs : List (LogicalOp × Bool)) :
    ∀ prev, evalLoopGo false false (fun b => Except.ok b) prev pairs
      = .ok (pairs.foldl (fun acc pr => applyLogicalOp pr.1 acc pr.2) prev) := by
  induction pairs with
  | nil => intro prev; simp [evalLoopGo]
  | cons pr rest ih =>
    intro prev
    obtain ⟨op, b⟩ := pr
    simp [evalLoopGo, Bind.bind, Except.bind, ih]

theorem evalLoopGo_and_short (pre : List (LogicalOp × Except EvalErr Bool)) :
    ∀ (op0 : LogicalOp) (junk : List (LogicalOp × Except EvalErr Bool)) (prev : Bool),
      (∀ pr ∈ pre, pr.2 = Except.ok true) →
      evalLoopGo true false id prev (pre ++ (op0, Except.ok false) :: junk)
        = .ok false := by
  induction pre with
  | nil =>
    intro op0 junk prev _
    simp [evalLoopGo, Bind.bind, Except.bind]
  | cons pr rest ih =>
    intro op0 junk prev hpre
    obtain ⟨op, r⟩ := pr
    have hr : r = Except.ok true := hpre (op, r) (List.mem_cons_self _ _)
    rw [hr]
    simp only [List.cons_append, evalLoopGo, Bind.bind, Except.bind, id]
    simpa using ih op0 junk (applyLogicalOp op prev true)
      (fun x hx => hpre x (List.mem_cons_of_mem _ hx))

theorem evalLoopGo_or_short (pre : List (LogicalOp × Except EvalErr Bool)) :
    ∀ (op0 : LogicalOp) (junk : List (LogicalOp × Except EvalErr Bool)) (prev : Bool),
      (∀ pr ∈ pre, pr.2 = Except.ok false) →
      evalLoopGo false true id prev (pre ++ (op0, Except.ok true) :: junk)
        = .ok true := by
  induction pre with
  | nil =>
    intro op0 junk prev _
    simp [evalLoopGo, Bind.bind, Except.bind]
  | cons pr rest ih =>
    intro op0 junk prev hpre
    obtain ⟨op, r⟩ := pr
    have hr : r = Except.ok false := hpre (op, r) (List.mem_cons_self _ _)
    rw [hr]
    simp only [List.cons_append, evalLoopGo, Bind.bind, Except.bind, id]
    simpa using ih op0 junk (applyLogicalOp op prev false)
      (fun x hx => hpre x (List.mem_cons_of_mem _ hx))

theorem contains_false_of_all {α} [BEq α] [LawfulBEq α] (l : List α) (x : α)
    (h : ∀ y ∈ l, y ≠ x) : l.contains x = false := by
  rw [Bool.eq_false_iff]
  intro hc
  exact h x (List.mem_of_elem_eq_true hc) rfl

theorem evalLoop_all_and_sem (ops : List LogicalOp) (parts : List Bool)
    (hne : ops ≠ []) (hall : ∀ op ∈ ops, op = LogicalOp.and)
    (hpne : parts ≠ []) (hlen : parts.length ≤ ops.length + 1) :
    evalLoop (fun b => Except.ok b) parts ops = .ok (parts.all id) := by
  have hOr : LogicalOp.or ∉ ops := by
    intro hm
    have := hall _ hm
    cases this
  have hAnd : LogicalOp.and ∈ ops := by
    cases ops with
    | nil => exact absurd rfl hne
    | cons o os =>
      have ho : o = LogicalOp.and := hall o (List.mem_cons_self _ _)
      exact ho ▸ List.mem_cons_self _ _
  cases parts with
  | nil => exact absurd rfl hpne
  | cons p rest =>
    have hrle : rest.length ≤ ops.length := by simpa using hlen
    cases p with
    | false => simp [evalLoop, hOr, hAnd, Bind.bind, Except.bind]
    | true =>
      have hgo := evalLoopGo_all_and (ops.zip rest)
        (fun pr hpr => hall pr.1 (List.of_mem_zip hpr).1) true
      rw [List.map_snd_zip ops rest hrle] at hgo
      simp only [Bool.true_and] at hgo
      simp [evalLoop, hOr, hAnd, Bind.bind, Except.bind, hgo]

theorem evalLoop_all_or_sem (ops : List LogicalOp) (parts : List Bool)
    (hne : ops ≠ []) (hall : ∀ op ∈ ops, op = LogicalOp.or)
    (hpne : parts ≠ []) (hlen : parts.length ≤ ops.length + 1) :
    evalLoop (fun b => Except.ok b) parts ops = .ok (parts.any id) := by
  have hAnd : LogicalOp.and ∉ ops := by
    intro hm
    have := hall _ hm
    cases this
  have hOr : LogicalOp.or ∈ ops := by
    cases ops with
    | nil => exact absurd rfl hne
    | cons o os =>
      have ho : o = LogicalOp.or := hall o (List.mem_cons_self _ _)
      exact ho ▸ List.mem_cons_self _ _
  cases parts with
  | nil => exact absurd rfl hpne
  | cons p rest =>
    have hrle : rest.length ≤ ops.length := by simpa using hlen
    cases p with
    | true => simp [evalLoop, hOr, hAnd, Bind.bind, Except.bind]
    | false =>
      have hgo := evalLoopGo_all_or (ops.zip rest)
        (fun pr hpr => hall pr.1 (List.of_mem_zip hpr).1) false
      rw [List.map_snd_zip ops rest hrle] at hgo
      simp only [Bool.false_or] at hgo
      simp [evalLoop, hOr, hAnd, Bind.bind, Except.bind, hgo]

theorem evalLoop_mixed_fold (ops : List LogicalOp) (p : Bool) (rest : List Bool)
    (hand : LogicalOp.and ∈ ops) (hor : LogicalOp.or ∈ ops) :
    evalLoop (fun b => Except.ok b) (p :: rest) ops
      = .ok ((ops.zip rest).foldl (fun acc pr => applyLogicalOp pr.1 acc pr.2) p) := by
  have hgo := evalLoopGo_mixed (ops.zip rest) p
  simp [evalLoop, hand, hor, Bind.bind, Except.bind, hgo]

theorem evalLoop_and_short (ops : List LogicalOp) (pre : List Bool)
    (junk : List (Except EvalErr Bool))
    (hne : ops ≠ []) (hall : ∀ op ∈ ops, op = LogicalOp.and)
    (hpre : ∀ b ∈ pre, b = true)
    (hlen : (pre.map Except.ok ++ Except.ok false :: junk).length ≤ ops.length + 1) :
    evalLoop id (pre.map Except.ok ++ Except.ok false :: junk) ops = .ok false := by
  have hOr : LogicalOp.or ∉ ops := by
    intro hm
    have := hall _ hm
    cases this
  have hAnd : LogicalOp.and ∈ ops := by
    cases ops with
    | nil => exact absurd rfl hne
    | cons o os =>
      have ho : o = LogicalOp.and := hall o (List.mem_cons_self _ _)
      exact ho ▸ List.mem_cons_self _ _
  cases pre with
  | nil => simp [evalLoop, hOr, hAnd, Bind.bind, Except.bind]
  | cons t pre2 =>
    have ht : t = true := hpre t (List.mem_cons_self _ _)
    subst ht
    have hlen2 : pre2.length + 1 ≤ ops.length := by
      simp only [List.map_cons, List.cons_append, List.length_cons, List.length_append,
        List.length_map] at hlen
      omega
    have htk : (ops.take pre2.length).length = pre2.length := by
      rw [List.length_take]
      omega
    have hdec : ops = ops.take pre2.length ++ ops.drop pre2.length :=
      (List.take_append_drop pre2.length ops).symm
    cases hdrop : ops.drop pre2.length with
    | nil =>
      have : ops.length - pre2.length = 0 := by
        rw [← List.length_drop, hdrop]
        rfl
      omega
    | cons op0 opsR =>
      have hzip : ops.zip (pre2.map Except.ok ++ Except.ok false :: junk)
          = (ops.take pre2.length).zip (pre2.map Except.ok)
            ++ (op0, Except.ok false) :: opsR.zip junk := by
        conv =>
          lhs
          rw [hdec, hdrop]
        rw [List.zip_append (by rw [htk, List.length_map])]
        rfl
      have hgo := evalLoopGo_and_short ((ops.take pre2.length).zip (pre2.map Except.ok))
        op0 (opsR.zip junk) true
        (fun pr hpr => by
          have hm := (List.of_mem_zip hpr).2
          rcases List.mem_map.mp hm with ⟨b, hb, hbe⟩
          rw [← hbe, hpre b (List.mem_cons_of_mem _ hb)])
      simp [evalLoop, hOr, hAnd, Bind.bind, Except.bind, hzip, hgo]

theorem evalLoop_or_short (ops : List LogicalOp) (pre : List Bool)
    (junk : List (Except EvalErr Bool))
    (hne : ops ≠ []) (hall : ∀ op ∈ ops, op = LogicalOp.or)
    (hpre : ∀ b ∈ pre, b = false)
    (hlen : (pre.map Except.ok ++ Except.ok true :: junk).length ≤ ops.length + 1) :
    evalLoop id (pre.map Except.ok ++ Except.ok true :: junk) ops = .ok true := by
  have hAnd : LogicalOp.and ∉ ops := by
    intro hm
    have := hall _ hm
    cases this
  have hOr : LogicalOp.or ∈ ops := by
    cases ops with
    | nil => exact absurd rfl hne
    | cons o os =>
      have ho : o = LogicalOp.or := hall o (List.mem_cons_self _ _)
      exact ho ▸ List.mem_cons_self _ _
  cases pre with
  | nil => simp [evalLoop, hOr, hAnd, Bind.bind, Except.bind]
  | cons t pre2 =>
    have ht : t = false := hpre t (List.mem_cons_self _ _)
    subst ht
    have hlen2 : pre2.length + 1 ≤ ops.length := by
      simp only [List.map_cons, List.cons_append, List.length_cons, List.length_append,
        List.length_map] at hlen
      omega
    have htk : (ops.take pre2.length).length = pre2.length := by
      rw [List.length_take]
      omega
    have hdec : ops = ops.take pre2.length ++ ops.drop pre2.length :=
      (List.take_append_drop pre2.length ops).symm
    cases hdrop : ops.drop pre2.length with
    | nil =>
      have : ops.length - pre2.length = 0 := by
        rw [← List.length_drop, hdrop]
        rfl
      omega
    | cons op0 opsR =>
      have hzip : ops.zip (pre2.map Except.ok ++ Except.ok true :: junk)
          = (ops.take pre2.length).zip (pre2.map Except.ok)
            ++ (op0, Except.ok true) :: opsR.zip junk := by
        conv =>
          lhs
          rw [hdec, hdrop]
        rw [List.zip_append (by rw [htk, List.length_map])]
        rfl
      have hgo := evalLoopGo_or_short ((ops.take pre2.length).zip (pre2.map Except.ok))
        op0 (opsR.zip junk) false
        (fun pr hpr => by
          have hm := (List.of_mem_zip hpr).2
          rcases List.mem_map.mp hm with ⟨b, hb, hbe⟩
          rw [← hbe, hpre b (List.mem_cons_of_mem _ hb)])
      simp [evalLoop, hOr, hAnd, Bind.bind, Except.bind, hzip, hgo]

/-- C6: the term-combination loop of `_evaluate_expression` (translated as
`evalLoop` over the evaluated term results and the collected operator
list).  (i) For a term sequence joined only by AND operators the result is
the conjunction of the terms, and the loop returns `False` as soon as a
term is false — terms after the first false one are never evaluated, so
even erroneous later terms (`junk`) cannot affect the result.  (ii) Dually
for OR: the result is the disjunction, returning `True` at the first true
term.  (iii) For a mixed AND/OR sequence the results are folded
left-to-right in operator order with no short-circuiting.  The length side
conditions reflect the call site: `re.split` produces at most one part more
than the collected operators. -/
theorem c6_short_circuit_and_fold :
    (∀ (ops : List LogicalOp) (parts : List Bool),
      ops ≠ [] → (∀ op ∈ ops, op = LogicalOp.and) →
      parts ≠ [] → parts.length ≤ ops.length + 1 →
      evalLoop (fun b => Except.ok b) parts ops = .ok (parts.all id))
    ∧ (∀ (ops : List LogicalOp) (pre : List Bool) (junk : List (Except EvalErr Bool)),
      ops ≠ [] → (∀ op ∈ ops, op = LogicalOp.and) →
      (∀ b ∈ pre, b = true) →
      (pre.map Except.ok ++ Except.ok false :: junk).length ≤ ops.length + 1 →
      evalLoop id (pre.map Except.ok ++ Except.ok false :: junk) ops = .ok false)
    ∧ (∀ (ops : List LogicalOp) (parts : List Bool),
      ops ≠ [] → (∀ op ∈ ops, op = LogicalOp.or) →
      parts ≠ [] → parts.length ≤ ops.length + 1 →
      evalLoop (fun b => Except.ok b) parts ops = .ok (parts.any id))
    ∧ (∀ (ops : List LogicalOp) (pre : List Bool) (junk : List (Except EvalErr Bool)),
      ops ≠ [] → (∀ op ∈ ops, op = LogicalOp.or) →
      (∀ b ∈ pre, b = false) →
      (pre.map Except.ok ++ Except.ok true :: junk).length ≤ ops.length + 1 →
      evalLoop id (pre.map Except.ok ++ Except.ok true :: junk) ops = .ok true)
    ∧ (∀ (ops : List LogicalOp) (p : Bool) (rest : List Bool),
      LogicalOp.and ∈ ops → LogicalOp.or ∈ ops →
      evalLoop (fun b => Except.ok b) (p :: rest) ops
        = .ok ((ops.zip rest).foldl (fun acc pr => applyLogicalOp pr.1 acc pr.2) p)) :=
  ⟨evalLoop_all_and_sem, evalLoop_and_short, evalLoop_all_or_sem,
    evalLoop_or_short, evalLoop_mixed_fold⟩

/-- C6 witness: concrete instances of all five parts — `t and f and t` is
false (and an erroneous third term after the false one is never reached),
`f or t` is true likewise, and `t and f or t` folds to true. -/
theorem c6_short_circuit_and_fold_witness :
    evalLoop (fun b => Except.ok b) [true, false, true] [LogicalOp.and, LogicalOp.and]
      = .ok false
    ∧ evalLoop id [Except.ok true, Except.ok false, Except.error EvalErr.typeError]
        [LogicalOp.and, LogicalOp.and] = .ok false
    ∧ evalLoop (fun b => Except.ok b) [false, true] [LogicalOp.or] = .ok true
    ∧ evalLoop id [Except.ok false, Except.ok true, Except.error EvalErr.typeError]
        [LogicalOp.or, LogicalOp.or] = .ok true
    ∧ evalLoop (fun b => Except.ok b) [true, false, true] [LogicalOp.and, LogicalOp.or]
      = .ok true := by
  refine ⟨?_, ?_, ?_, ?_, ?_⟩
  · exact c6_short_circuit_and_fold.1 [LogicalOp.and, LogicalOp.and] [true, false, true]
      (by decide) (by decide) (by decide) (by decide)
  · exact c6_short_circuit_and_fold.2.1 [LogicalOp.and, LogicalOp.and] [true]
      [Except.error EvalErr.typeError] (by decide) (by decide) (by decide) (by decide)
  · exact c6_short_circuit_and_fold.2.2.1 [LogicalOp.or] [false, true]
      (by decide) (by decide) (by decide) (by decide)
  · exact c6_short_circuit_and_fold.2.2.2.1 [LogicalOp.or, LogicalOp.or] [false]
      [Except.error EvalErr.typeError] (by decide) (by decide) (by decide) (by decide)
  · exact c6_short_circuit_and_fold.2.2.2.2 [LogicalOp.and, LogicalOp.or] true
      [false, true] (by decide) (by decide)

theorem evalSingleCond_split_ne_two (gv : Str → Except EvalErr PyValue)
    (reM : Str → Str → Except EvalErr Bool) (cond : Str) (op : Str)
    (h1 : strLower (strTrim cond) ≠ strOf "true")
    (h2 : strLower (strTrim cond) ≠ strOf "false")
    (hfind : findOp (strTrim cond) = some op)
    (hsplit : (opSplit op (strTrim cond)).length ≠ 2) :
    evalSingleCond gv reM cond = .ok false := by
  rw [evalSingleCond]
  rw [if_neg (by simpa using h1), if_neg (by simpa using h2), hfind]
  dsimp only
  cases hs : opSplit op (strTrim cond) with
  | nil => rfl
  | cons a t =>
    cases t with
    | nil => rfl
    | cons b t2 =>
      cases t2 with
      | nil =>
        rw [hs] at hsplit
        simp at hsplit
      | cons c t3 => rfl

theorem evalSingleCond_value_none (gv : Str → Except EvalErr PyValue)
    (reM : Str → Str → Except EvalErr Bool) (cond : Str) (op l r : Str)
    (h1 : strLower (strTrim cond) ≠ strOf "true")
    (h2 : strLower (strTrim cond) ≠ strOf "false")
    (hfind : findOp (strTrim cond) = some op)
    (hsplit : opSplit op (strTrim cond) = [l, r])
    (hval : gv (strTrim l) = .ok PyValue.none) :
    evalSingleCond gv reM cond = .ok false := by
  rw [evalSingleCond]
  rw [if_neg (by simpa using h1), if_neg (by simpa using h2), hfind]
  dsimp only
  rw [hsplit]
  dsimp only
  rw [hval]
  rfl

theorem evalSingleCond_numeric_fail (gv : Str → Except EvalErr PyValue)
    (reM : Str → Str → Except EvalErr Bool) (cond : Str) (op l r s : Str)
    (h1 : strLower (strTrim cond) ≠ strOf "true")
    (h2 : strLower (strTrim cond) ≠ strOf "false")
    (hfind : findOp (strTrim cond) = some op)
    (hsplit : opSplit op (strTrim cond) = [l, r])
    (hval : gv (strTrim l) = .ok (PyValue.str s))
    (hre : op ≠ strOf "=~") (hnre : op ≠ strOf "!~")
    (heq : op ≠ strOf "==") (hne : op ≠ strOf "!=")
    (hnum : parseFloat s = Option.none ∨ parseFloat (strTrim r) = Option.none) :
    evalSingleCond gv reM cond = .ok false := by
  rw [evalSingleCond]
  rw [if_neg (by simpa using h1), if_neg (by simpa using h2), hfind]
  dsimp only
  rw [hsplit]
  dsimp only
  rw [hval]
  dsimp only [Bind.bind, Except.bind]
  rw [if_neg (by simpa using hre), if_neg (by simpa using hnre),
      if_neg (by simpa using heq), if_neg (by simpa using hne)]
  have hps : pyFloat (PyValue.str s) = parseFloat s := rfl
  rw [hps]
  cases hf : parseFloat s with
  | none => rfl
  | some a =>
    cases hp : parseFloat (strTrim r) with
    | none => rfl
    | some b =>
      rcases hnum with hl | hr
      · rw [hf] at hl; exact absurd hl (by simp)
      · rw [hp] at hr; exact absurd hr (by simp)

theorem evalExpr_unbalanced (gv : Str → Except EvalErr PyValue)
    (reM : Str → Str → Except EvalErr Bool) (cond : Str)
    (hcount : countChar '(' cond ≠ countChar ')' cond) :
    evalExpressionStr gv reM cond = .error .unbalancedParens := by
  show evalExprFuel gv reM (2 * countChar '(' cond + 1 + 1) cond = _
  rw [evalExprFuel]
  by_cases hp : (cond.contains '(') = true
  · rw [if_pos hp, if_pos hcount]
  · have h0 : countChar '(' cond = 0 :=
      countChar_eq_zero_of_not_contains _ _ (by simpa using hp)
    have h1 : (cond.contains ')') = true :=
      contains_of_countChar_ne _ _ (fun hz => hcount (h0.trans hz.symm))
    rw [if_neg hp, if_pos h1]

/-- C7 (counterexample): not every non-parenthesis failure is silent.
A comparison whose left side indexes a configuration value out of range
(`nozzle_diameter[2]` against a one-element list) raises `IndexError`
inside `get_value_from_config`; `_evaluate_single_condition` calls
`get_value` outside any `try`, so the error propagates out of
`evaluate_printer_condition` instead of yielding `False`. -/
theorem c7_index_error_counterexample :
    evaluatePrinterCondition (fun _ _ => Except.ok false)
      (strOf "nozzle_diameter[2] == 0.4")
      [(strOf "nozzle_diameter", PyValue.list [PyValue.str (strOf "0.4")])]
      (strOf "bambustudio") Option.none = .error .indexError := by
  rfl

/-- C7 (amended): unbalanced parentheses (a `(`/`)` count mismatch) are
fatal for the expression — the evaluator raises the parse error — while the
listed classes of ill-formed comparisons evaluate to `false` silently: an
operator whose operand split does not have exactly two parts, a comparison
whose left-hand variable is undefined (`get_value` returns `None`), and a
numeric comparison either of whose sides fails float coercion.  (Errors
raised inside `get_value` itself, such as `IndexError`, still propagate —
see the counterexample.) -/
theorem c7_malformed_false_amended :
    (∀ (gv : Str → Except EvalErr PyValue) (reM : Str → Str → Except EvalErr Bool)
      (cond : Str), countChar '(' cond ≠ countChar ')' cond →
      evalExpressionStr gv reM cond = .error .unbalancedParens)
    ∧ (∀ (gv : Str → Except EvalErr PyValue) (reM : Str → Str → Except EvalErr Bool)
      (cond op : Str),
      strLower (strTrim cond) ≠ strOf "true" →
      strLower (strTrim cond) ≠ strOf "false" →
      findOp (strTrim cond) = some op →
      (opSplit op (strTrim cond)).length ≠ 2 →
      evalSingleCond gv reM cond = .ok false)
    ∧ (∀ (gv : Str → Except EvalErr PyValue) (reM : Str → Str → Except EvalErr Bool)
      (cond op l r : Str),
      strLower (strTrim cond) ≠ strOf "true" →
      strLower (strTrim cond) ≠ strOf "false" →
      findOp (strTrim cond) = some op →
      opSplit op (strTrim cond) = [l, r] →
      gv (strTrim l) = .ok PyValue.none →
      evalSingleCond gv reM cond = .ok false)
    ∧ (∀ (gv : Str → Except EvalErr PyValue) (reM : Str → Str → Except EvalErr Bool)
      (cond op l r s : Str),
      strLower (strTrim cond) ≠ strOf "true" →
      strLower (strTrim cond) ≠ strOf "false" →
      findOp (strTrim cond) = some op →
      opSplit op (strTrim cond) = [l, r] →
      gv (strTrim l) = .ok (PyValue.str s) →
      op ≠ strOf "=~" → op ≠ strOf "!~" → op ≠ strOf "==" → op ≠ strOf "!=" →
      (parseFloat s = Option.none ∨ parseFloat (strTrim r) = Option.none) →
      evalSingleCond gv reM cond = .ok false) := by
  refine ⟨?_, ?_, ?_, ?_⟩
  · exact evalExpr_unbalanced
  · exact fun gv reM cond op h1 h2 hf hs =>
      evalSingleCond_split_ne_two gv reM cond op h1 h2 hf hs
  · exact fun gv reM cond op l r h1 h2 hf hs hv =>
      evalSingleCond_value_none gv reM cond op l r h1 h2 hf hs hv
  · exact fun gv reM cond op l r s h1 h2 hf hs hv ha hb hc hd hn =>
      evalSingleCond_numeric_fail gv reM cond op l r s h1 h2 hf hs hv ha hb hc hd hn

/-- C7 witness: a lone `(` raises the parse error; `a == b == c` (three-way
split), `x == 1` with an undefined variable, and `x > y` with a non-numeric
value each evaluate to `false`. -/
theorem c7_malformed_false_amended_witness :
    evalExpressionStr (fun _ => Except.ok PyValue.none) (fun _ _ => Except.ok false)
      (strOf "(") = .error .unbalancedParens
    ∧ evalSingleCond (fun _ => Except.ok PyValue.none) (fun _ _ => Except.ok false)
      (strOf "a == b == c") = .ok false
    ∧ evalSingleCond (fun _ => Except.ok PyValue.none) (fun _ _ => Except.ok false)
      (strOf "x == 1") = .ok false
    ∧ evalSingleCond (fun _ => Except.ok (PyValue.str (strOf "abc")))
      (fun _ _ => Except.ok false) (strOf "x > y") = .ok false := by
  refine ⟨?_, ?_, ?_, ?_⟩
  · exact c7_malformed_false_amended.1 _ _ (strOf "(") (by decide)
  · exact c7_malformed_false_amended.2.1 _ _ (strOf "a == b == c") (strOf "==")
      (by decide) (by decide) (by decide) (by decide)
  · exact c7_malformed_false_amended.2.2.1 _ _ (strOf "x == 1") (strOf "==")
      (strOf "x ") (strOf " 1") (by decide) (by decide) (by decide) (by decide) rfl
  · exact c7_malformed_false_amended.2.2.2 _ _ (strOf "x > y") (strOf ">")
      (strOf "x ") (strOf " y") (strOf "abc") (by decide) (by decide) (by decide)
      (by decide) rfl (by decide) (by decide) (by decide) (by decide)
      (Or.inl (by decide))

theorem eval_create_settings (version : Str) (l : List (Str × PyValue)) :
    (l.filterMap (fun kv => if metaKeys.contains kv.1 then Option.none
        else some (kv.1, [(version, kv.2)]))).filterMap
      (fun kv => ((kv.2.foldl (fun acc v =>
          if vkLeB (versionKey v.1) (versionKey version) then some v.2 else acc)
        Option.none).map (fun val => (kv.1, val))))
      = l.filterMap (fun kv =>
          if metaKeys.contains kv.1 then Option.none else some kv) := by
  induction l with
  | nil => rfl
  | cons kv rest ih =>
    rw [List.filterMap_cons, List.filterMap_cons]
    by_cases hm : (metaKeys.contains kv.1) = true
    · rw [if_pos hm, if_pos hm]
      exact ih
    · rw [if_neg hm, if_neg hm]
      rw [List.filterMap_cons]
      simp only [List.foldl, vkLeB_refl, if_true, Option.map_some']
      rw [ih]

theorem evaluateAt_createStored (p : ParsedProfileL) (V : Str) :
    evaluateAt (createStored p V) V
      = p.settings.filterMap (fun kv =>
          if metaKeys.contains kv.1 then Option.none else some kv) := by
  simp only [evaluateAt, createStored]
  exact eval_create_settings V p.settings

theorem processProfile_empty (p : ParsedProfileL) (V : Str) :
    processProfile p.slicer V ⟨emptyStore, [], [], []⟩ p
      = ⟨storeSave emptyStore (createStored p V), [p.name], [],
          [rawProfileKey p.slicer p]⟩ := by
  simp only [processProfile, storeLoad, emptyStore, dictLookup]
  cases hrf : extractRenamedFrom p.settings with
  | none => rfl
  | some oldName => rfl

/-- C1 (amended): ingesting a `ParsedProfile` at version V into an empty
store and evaluating the stored profile at V returns the parsed settings
with the metadata keys (`renamed_from`) removed — `_create_stored` filters
`_META_KEYS` out of the recorded histories, so the round trip is the
identity only on the non-metadata part of the settings. -/
theorem c1_roundtrip_amended (p : ParsedProfileL) (V : Str) :
    (storeGet (ingestProfiles emptyStore p.slicer V [p]).1
        p.slicer p.profile_type.val p.vendor p.name).map
      (fun sp => evaluateAt sp V)
      = some (p.settings.filterMap (fun kv =>
          if metaKeys.contains kv.1 then Option.none else some kv)) := by
  simp only [ingestProfiles, List.foldl, processProfile_empty]
  simp only [storeGet, storeLoad, updateMeta, storeSave, emptyStore, dictInsert]
  rw [dictLookup]
  have hk : storedPathKey (createStored p V)
      = pathKeyFor p.slicer.val p.profile_type.val p.vendor p.name := rfl
  rw [if_pos hk]
  simp only [Option.map_some']
  rw [evaluateAt_createStored]

/-- C1 (counterexample): for a parsed profile whose settings carry the
metadata key `renamed_from`, the round trip loses that key — the stored
evaluation is empty while `p.settings` is not, so `evaluate(V)` does not
equal `p.settings`. -/
theorem c1_roundtrip_counterexample :
    (storeGet (ingestProfiles emptyStore SlicerT.bambustudio (strOf "1")
        [renamedFromProfile]).1 SlicerT.bambustudio
        renamedFromProfile.profile_type.val renamedFromProfile.vendor
        renamedFromProfile.name).map (fun sp => evaluateAt sp (strOf "1"))
      = some []
    ∧ renamedFromProfile.settings ≠ [] := by
  refine ⟨rfl, ?_⟩
  simp [renamedFromProfile]

theorem mergeRenameSettings_lookup (oldS : List (Str × List (Str × PyValue))) :
    ∀ (newS : List (Str × List (Str × PyValue))),
    (oldS.map Prod.fst).Nodup → ∀ k,
    dictLookup (mergeRenameSettings oldS newS) k
      = match dictLookup oldS k with
        | Option.none => dictLookup newS k
        | some oldh =>
          match dictLookup newS k with
          | Option.none => some oldh
          | some newh => some (dictUpdate oldh newh) := by
  induction oldS with
  | nil => intro newS _ k; rfl
  | cons kv rest ih =>
    intro newS hnd k
    rw [List.map_cons, List.nodup_cons] at hnd
    have hstep : mergeRenameSettings (kv :: rest) newS
        = mergeRenameSettings rest
          (match dictLookup newS kv.1 with
           | some newh => dictInsert newS kv.1 (dictUpdate kv.2 newh)
           | Option.none => newS ++ [kv]) := rfl
    rw [hstep]
    by_cases hk : kv.1 = k
    · subst hk
      have hrest : dictLookup rest kv.1 = Option.none := by
        cases hr : dictLookup rest kv.1 with
        | none => rfl
        | some h2 =>
          exact absurd ((dictLookup_isSome_iff_mem_keys rest kv.1).mp
            (by rw [hr]; rfl)) hnd.1
      cases hnk : dictLookup newS kv.1 with
      | some newh =>
        rw [ih _ hnd.2 kv.1, hrest]
        dsimp only
        rw [dictLookup_insert_self]
        have h2 : dictLookup (kv :: rest) kv.1 = some kv.2 := by
          simp [dictLookup]
        rw [h2]
      | none =>
        rw [ih _ hnd.2 kv.1, hrest]
        dsimp only
        rw [dictLookup_append, hnk]
        have h1 : dictLookup ([kv] : List (Str × List (Str × PyValue))) kv.1
            = some kv.2 := by simp [dictLookup]
        rw [h1]
        have h2 : dictLookup (kv :: rest) kv.1 = some kv.2 := by
          simp [dictLookup]
        rw [h2]
        dsimp only
        rfl
    · cases hnk : dictLookup newS kv.1 with
      | some newh =>
        rw [ih _ hnd.2 k]
        rw [dictLookup_insert_ne _ _ hk]
        have h2 : dictLookup (kv :: rest) k = dictLookup rest k := by
          rw [dictLookup, if_neg hk]
        rw [h2]
      | none =>
        rw [ih _ hnd.2 k]
        have h1 : dictLookup ([kv] : List (Str × List (Str × PyValue))) k
            = Option.none := by
          rw [dictLookup, if_neg hk]; rfl
        rw [dictLookup_append, h1, Option.or_none]
        have h2 : dictLookup (kv :: rest) k = dictLookup rest k := by
          rw [dictLookup, if_neg hk]
        rw [h2]

/-- C3 (amended): when a new profile carrying `renamed_from = X` is
ingested and X exists under the same coordinates, the successor adopts X's
`first_seen`, records `renamed_from = X`, and X's file is deleted; for each
setting key common to both, the successor's history is `dict(X's history)`
updated in place with the successor's entries — so it begins with X's full
history only when the new version does not collide with a version already
present in X's history (the appended form below); keys only in X are
copied verbatim. -/
theorem c3_rename_amended (slicer : SlicerT) (V : Str) (acc : IngestAcc)
    (p : ParsedProfileL) (oldName : Str) (oldProf : StoredProfileL)
    (hsl : p.slicer = slicer)
    (hnew : storeLoad acc.store
      (pathKeyFor slicer.val p.profile_type.val p.vendor p.name) = Option.none)
    (hrf : extractRenamedFrom p.settings = some oldName)
    (hold : storeLoad acc.store
      (pathKeyFor slicer.val p.profile_type.val p.vendor oldName) = some oldProf)
    (hnd : (oldProf.settings.map Prod.fst).Nodup) :
    let merged := mergeRename (createStored p V) oldProf
    let st' := (processProfile slicer V acc p).store
    storeLoad st' (pathKeyFor slicer.val p.profile_type.val p.vendor p.name)
      = some merged
    ∧ merged.first_seen = oldProf.first_seen
    ∧ merged.renamed_from = some oldProf.name
    ∧ (∀ k oldh newh, dictLookup oldProf.settings k = some oldh →
        dictLookup (createStored p V).settings k = some newh →
        dictLookup merged.settings k = some (dictUpdate oldh newh))
    ∧ (∀ k oldh v, dictLookup oldProf.settings k = some oldh →
        dictLookup (createStored p V).settings k = some [(V, v)] →
        V ∉ oldh.map Prod.fst →
        dictLookup merged.settings k = some (oldh ++ [(V, v)]))
    ∧ (∀ k oldh, dictLookup oldProf.settings k = some oldh →
        dictLookup (createStored p V).settings k = Option.none →
        dictLookup merged.settings k = some oldh)
    ∧ storeLoad st' (pathKeyFor slicer.val p.profile_type.val p.vendor oldName)
      = Option.none := by
  intro merged st'
  have hst : st' = storeSave
      (storeDelete acc.store (pathKeyFor slicer.val p.profile_type.val p.vendor oldName))
      merged := by
    show (processProfile slicer V acc p).store = _
    simp only [processProfile]
    rw [hnew]
    dsimp only
    rw [hrf]
    dsimp only
    rw [hold]
  have hpath : storedPathKey merged
      = pathKeyFor slicer.val p.profile_type.val p.vendor p.name := by
    show pathKeyFor p.slicer.val p.profile_type.val p.vendor p.name = _
    rw [hsl]
  have hne : pathKeyFor slicer.val p.profile_type.val p.vendor p.name
      ≠ pathKeyFor slicer.val p.profile_type.val p.vendor oldName := by
    intro he
    rw [he, hold] at hnew
    exact Option.noConfusion hnew
  refine ⟨?_, rfl, rfl, ?_, ?_, ?_, ?_⟩
  · rw [hst]
    show dictLookup (dictInsert _ (storedPathKey merged) merged) _ = _
    rw [← hpath]
    exact dictLookup_insert_self _ _ _
  · intro k oldh newh ho hn
    have h := mergeRenameSettings_lookup oldProf.settings
      (createStored p V).settings hnd k
    rw [ho, hn] at h
    exact h
  · intro k oldh v ho hn hmem
    have h := mergeRenameSettings_lookup oldProf.settings
      (createStored p V).settings hnd k
    rw [ho, hn] at h
    have h2 : dictUpdate oldh [(V, v)] = oldh ++ [(V, v)] := by
      show dictInsert oldh V v = _
      exact dictInsert_eq_append_of_not_mem hmem v
    calc dictLookup merged.settings k = some (dictUpdate oldh [(V, v)]) := h
      _ = some (oldh ++ [(V, v)]) := by rw [h2]
  · intro k oldh ho hn
    have h := mergeRenameSettings_lookup oldProf.settings
      (createStored p V).settings hnd k
    rw [ho, hn] at h
    exact h
  · rw [hst]
    show dictLookup (dictInsert _ (storedPathKey merged) merged) _ = _
    rw [hpath]
    rw [dictLookup_insert_ne _ _ hne]
    exact dictLookup_filter_ne_self _ _

/-- C3 witness: ingesting `Y` (with `renamed_from = "X"`) at version `2`
over a store holding only `X` — the rename hypotheses hold concretely and
the amended conclusions follow. -/
theorem c3_rename_amended_witness :
    (let merged := mergeRename (createStored profileY (strOf "2")) profileX
     let st' := (processProfile SlicerT.bambustudio (strOf "2")
        ⟨storeWithX, [], [], []⟩ profileY).store
     storeLoad st' (pathKeyFor SlicerT.bambustudio.val profileY.profile_type.val
        profileY.vendor profileY.name) = some merged
     ∧ merged.first_seen = profileX.first_seen
     ∧ merged.renamed_from = some profileX.name
     ∧ (∀ k oldh newh, dictLookup profileX.settings k = some oldh →
         dictLookup (createStored profileY (strOf "2")).settings k = some newh →
         dictLookup merged.settings k = some (dictUpdate oldh newh))
     ∧ (∀ k oldh v, dictLookup profileX.settings k = some oldh →
         dictLookup (createStored profileY (strOf "2")).settings k
           = some [(strOf "2", v)] →
         strOf "2" ∉ oldh.map Prod.fst →
         dictLookup merged.settings k = some (oldh ++ [(strOf "2", v)]))
     ∧ (∀ k oldh, dictLookup profileX.settings k = some oldh →
         dictLookup (createStored profileY (strOf "2")).settings k = Option.none →
         dictLookup merged.settings k = some oldh)
     ∧ storeLoad st' (pathKeyFor SlicerT.bambustudio.val profileY.profile_type.val
        profileY.vendor (strOf "X")) = Option.none) :=
  c3_rename_amended SlicerT.bambustudio (strOf "2") ⟨storeWithX, [], [], []⟩
    profileY (strOf "X") profileX rfl rfl rfl rfl (by decide)

/-- C3 (counterexample): when the new version collides with a version
already recorded in X's history, the merged history does not begin with
X's full history — `dict(old).update(new)` overwrites the colliding entry
in place.  Ingesting `Y` (`renamed_from = "X"`, `k = 6`) at version `1`
over a store where X recorded `k = 5` at version `1` leaves `Y`'s history
for `k` as `{1: 6}`, which no list extends to start with X's `{1: 5}`. -/
theorem c3_rename_collision_counterexample :
    (storeGet (ingestProfiles storeWithX SlicerT.bambustudio (strOf "1")
        [profileY]).1 SlicerT.bambustudio (strOf "filament") (strOf "BBL")
        (strOf "Y")).map (fun sp => dictLookup sp.settings (strOf "k"))
      = some (some [(strOf "1", PyValue.int 6)])
    ∧ dictLookup profileX.settings (strOf "k") = some [(strOf "1", PyValue.int 5)]
    ∧ ∀ t : List (Str × PyValue),
        [(strOf "1", PyValue.int 6)] ≠ [(strOf "1", PyValue.int 5)] ++ t := by
  refine ⟨rfl, rfl, ?_⟩
  intro t h
  simp at h

theorem mergeVersion_fold_path (V : Str) :
    ∀ (l : List (Str × PyValue)) (a : StoredProfileL × List Str),
    storedPathKey (l.foldl
      (fun acc kv =>
        if metaKeys.contains kv.1 then acc
        else
          let current := getLatest acc.1 kv.1
          if pyNormalize current == pyNormalize kv.2 then acc
          else
            let history := (dictLookup acc.1.settings kv.1).getD []
            ({ acc.1 with
                settings := dictInsert acc.1.settings kv.1 (dictInsert history V kv.2) },
              acc.2 ++ [kv.1])) a).1
      = storedPathKey a.1 := by
  intro l
  induction l with
  | nil => intro a; rfl
  | cons kv rest ih =>
    intro a
    rw [List.foldl_cons, ih]
    by_cases h1 : (metaKeys.contains kv.1) = true
    · rw [if_pos h1]
    · rw [if_neg h1]
      dsimp only
      by_cases h2 : (pyNormalize (getLatest a.1 kv.1) == pyNormalize kv.2) = true
      · rw [if_pos h2]
      · rw [if_neg h2]
        rfl

theorem mergeVersion_storedPathKey (stored : StoredProfileL) (p : ParsedProfileL)
    (V : Str) :
    storedPathKey (mergeVersion stored p V).1 = storedPathKey stored :=
  mergeVersion_fold_path V p.settings ({ stored with last_seen := V }, [])

theorem processProfile_step (slicer : SlicerT) (V : Str) (K : PathKey)
    (O : StoredProfileL) (acc : IngestAcc) (p : ParsedProfileL)
    (hK : storeLoad acc.store K = some O)
    (hWF : ∀ e ∈ acc.store.files, storedPathKey e.2 = e.1)
    (hseen : ∀ x ∈ acc.seen, x ≠ diskKey K)
    (hps : p.slicer = slicer)
    (hpp : pathKeyFor slicer.val p.profile_type.val p.vendor p.name ≠ K)
    (hpr : rawProfileKey slicer p ≠ diskKey K)
    (hpren : ∀ oldName, extractRenamedFrom p.settings = some oldName →
      pathKeyFor slicer.val p.profile_type.val p.vendor oldName ≠ K) :
    storeLoad (processProfile slicer V acc p).store K = some O
    ∧ (∀ e ∈ (processProfile slicer V acc p).store.files, storedPathKey e.2 = e.1)
    ∧ (∀ x ∈ (processProfile slicer V acc p).seen, x ≠ diskKey K) := by
  have hsave : ∀ (st : Store) (sp : StoredProfileL),
      storeLoad st K = some O → (∀ e ∈ st.files, storedPathKey e.2 = e.1) →
      storedPathKey sp ≠ K →
      storeLoad (storeSave st sp) K = some O
      ∧ (∀ e ∈ (storeSave st sp).files, storedPathKey e.2 = e.1) := by
    intro st sp hl hw hne
    constructor
    · show dictLookup (dictInsert st.files (storedPathKey sp) sp) K = some O
      rw [dictLookup_insert_ne _ _ hne]
      exact hl
    · intro e he
      rcases mem_dictInsert he with h | h
      · exact hw e h
      · rw [h]
  have hdel : ∀ (st : Store) (kd : PathKey),
      storeLoad st K = some O → (∀ e ∈ st.files, storedPathKey e.2 = e.1) →
      kd ≠ K →
      storeLoad (storeDelete st kd) K = some O
      ∧ (∀ e ∈ (storeDelete st kd).files, storedPathKey e.2 = e.1) := by
    intro st kd hl hw hne
    constructor
    · show dictLookup (st.files.filter _) K = some O
      rw [dictLookup_filter_ne _ hne]
      exact hl
    · intro e he
      exact hw e (List.mem_filter.mp he).1
  have hseenEq : (processProfile slicer V acc p).seen
      = acc.seen ++ [rawProfileKey slicer p] := by
    simp only [processProfile]
    cases storeLoad acc.store
      (pathKeyFor slicer.val p.profile_type.val p.vendor p.name) <;> rfl
  have hseen' : ∀ x ∈ (processProfile slicer V acc p).seen, x ≠ diskKey K := by
    rw [hseenEq]
    intro x hx
    rcases List.mem_append.mp hx with h | h
    · exact hseen x h
    · rw [List.mem_singleton] at h
      rw [h]
      exact hpr
  have hcr : storedPathKey (createStored p V)
      = pathKeyFor slicer.val p.profile_type.val p.vendor p.name := by
    show pathKeyFor p.slicer.val p.profile_type.val p.vendor p.name = _
    rw [hps]
  have hstore : storeLoad (processProfile slicer V acc p).store K = some O
      ∧ ∀ e ∈ (processProfile slicer V acc p).store.files, storedPathKey e.2 = e.1 := by
    cases hload : storeLoad acc.store
        (pathKeyFor slicer.val p.profile_type.val p.vendor p.name) with
    | none =>
      cases hrf : extractRenamedFrom p.settings with
      | none =>
        have heq : (processProfile slicer V acc p).store
            = storeSave acc.store (createStored p V) := by
          simp only [processProfile]
          rw [hload]
          dsimp only
          rw [hrf]
        rw [heq]
        exact hsave acc.store (createStored p V) hK hWF (by rw [hcr]; exact hpp)
      | some oldName =>
        cases hold : storeLoad acc.store
            (pathKeyFor slicer.val p.profile_type.val p.vendor oldName) with
        | none =>
          have heq : (processProfile slicer V acc p).store
              = storeSave acc.store (createStored p V) := by
            simp only [processProfile]
            rw [hload]
            dsimp only
            rw [hrf]
            dsimp only
            rw [hold]
          rw [heq]
          exact hsave acc.store (createStored p V) hK hWF (by rw [hcr]; exact hpp)
        | some oldProf =>
          have heq : (processProfile slicer V acc p).store
              = storeSave (storeDelete acc.store
                  (pathKeyFor slicer.val p.profile_type.val p.vendor oldName))
                (mergeRename (createStored p V) oldProf) := by
            simp only [processProfile]
            rw [hload]
            dsimp only
            rw [hrf]
            dsimp only
            rw [hold]
          rw [heq]
          have hd := hdel acc.store _ hK hWF (hpren oldName hrf)
          exact hsave _ _ hd.1 hd.2 (by
            show pathKeyFor p.slicer.val p.profile_type.val p.vendor p.name ≠ K
            rw [hps]; exact hpp)
    | some existing =>
      have hmem := dictLookup_some_mem hload
      have hpath : storedPathKey existing
          = pathKeyFor slicer.val p.profile_type.val p.vendor p.name :=
        hWF _ hmem
      have hmv : storedPathKey (mergeVersion existing p V).1 ≠ K := by
        rw [mergeVersion_storedPathKey, hpath]
        exact hpp
      by_cases hcond : ((mergeVersion existing p V).2 ≠ []
          ∨ existing.last_seen ≠ V)
      · have heq : (processProfile slicer V acc p).store
            = storeSave acc.store (mergeVersion existing p V).1 := by
          simp only [processProfile]
          rw [hload]
          dsimp only
          rw [if_pos hcond]
        rw [heq]
        exact hsave _ _ hK hWF hmv
      · have heq : (processProfile slicer V acc p).store = acc.store := by
          simp only [processProfile]
          rw [hload]
          dsimp only
          rw [if_neg hcond]
        rw [heq]
        exact ⟨hK, hWF⟩
  exact ⟨hstore.1, hstore.2, hseen'⟩

theorem ingest_fold_invariant (slicer : SlicerT) (V : Str) (K : PathKey)
    (O : StoredProfileL) :
    ∀ (ps : List ParsedProfileL) (acc : IngestAcc),
    storeLoad acc.store K = some O →
    (∀ e ∈ acc.store.files, storedPathKey e.2 = e.1) →
    (∀ x ∈ acc.seen, x ≠ diskKey K) →
    (∀ p ∈ ps, p.slicer = slicer) →
    (∀ p ∈ ps, pathKeyFor slicer.val p.profile_type.val p.vendor p.name ≠ K) →
    (∀ p ∈ ps, rawProfileKey slicer p ≠ diskKey K) →
    (∀ p ∈ ps, ∀ oldName, extractRenamedFrom p.settings = some oldName →
      pathKeyFor slicer.val p.profile_type.val p.vendor oldName ≠ K) →
    storeLoad (ps.foldl (processProfile slicer V) acc).store K = some O
    ∧ (∀ e ∈ (ps.foldl (processProfile slicer V) acc).store.files,
        storedPathKey e.2 = e.1)
    ∧ (∀ x ∈ (ps.foldl (processProfile slicer V) acc).seen, x ≠ diskKey K) := by
  intro ps
  induction ps with
  | nil => intro acc h1 h2 h3 _ _ _ _; exact ⟨h1, h2, h3⟩
  | cons p rest ih =>
    intro acc h1 h2 h3 h4 h5 h6 h7
    rw [List.foldl_cons]
    have step := processProfile_step slicer V K O acc p h1 h2 h3
      (h4 p (List.mem_cons_self _ _))
      (h5 p (List.mem_cons_self _ _))
      (h6 p (List.mem_cons_self _ _))
      (h7 p (List.mem_cons_self _ _))
    exact ih (processProfile slicer V acc p) step.1 step.2.1 step.2.2
      (fun q hq => h4 q (List.mem_cons_of_mem _ hq))
      (fun q hq => h5 q (List.mem_cons_of_mem _ hq))
      (fun q hq => h6 q (List.mem_cons_of_mem _ hq))
      (fun q hq oldName hrf => h7 q (List.mem_cons_of_mem _ hq) oldName hrf)

/-- C9 (amended): a stored profile at path K whose file existed before the
ingestion at version V₂ and which is untouched by the new profile set —
no new profile saves at K, none carries K's disk key, and no rename
targets K — is listed as removed in the report (its disk key is in
`removed`), its file is not deleted, it remains loadable at K with its
stored contents (hence `last_seen`) unchanged.  The untouched-ness
hypotheses are necessary: a rename deletes the predecessor's file even
though the predecessor is absent from the new set (see the
counterexample). -/
theorem c9_removed_not_deleted_amended (st : Store) (slicer : SlicerT) (V : Str)
    (ps : List ParsedProfileL) (K : PathKey) (O : StoredProfileL)
    (hK : storeLoad st K = some O)
    (hWF : ∀ e ∈ st.files, storedPathKey e.2 = e.1)
    (hKsl : K.slicer = slicer.val)
    (hKv : ¬ strStarts (strOf "_") K.vendor = true)
    (h4 : ∀ p ∈ ps, p.slicer = slicer)
    (h5 : ∀ p ∈ ps, pathKeyFor slicer.val p.profile_type.val p.vendor p.name ≠ K)
    (h6 : ∀ p ∈ ps, rawProfileKey slicer p ≠ diskKey K)
    (h7 : ∀ p ∈ ps, ∀ oldName, extractRenamedFrom p.settings = some oldName →
      pathKeyFor slicer.val p.profile_type.val p.vendor oldName ≠ K) :
    diskKey K ∈ (ingestProfiles st slicer V ps).2.removed
    ∧ storeLoad (ingestProfiles st slicer V ps).1 K = some O := by
  have inv := ingest_fold_invariant slicer V K O ps ⟨st, [], [], []⟩ hK hWF
    (by intro x hx; cases hx) h4 h5 h6 h7
  obtain ⟨hload, hwf, hsn⟩ := inv
  constructor
  · show diskKey K ∈ (listProfileKeys
        (ps.foldl (processProfile slicer V) ⟨st, [], [], []⟩).store slicer).filter
      (fun k => !((ps.foldl (processProfile slicer V) ⟨st, [], [], []⟩).seen.contains k))
    apply List.mem_filter.mpr
    refine ⟨?_, ?_⟩
    · apply List.mem_filterMap.mpr
      refine ⟨(K, O), dictLookup_some_mem hload, ?_⟩
      rw [if_pos ⟨hKsl, hKv⟩]
    · have hnm : diskKey K
          ∉ (ps.foldl (processProfile slicer V) ⟨st, [], [], []⟩).seen :=
        fun hm => hsn _ hm rfl
      simpa using hnm
  · exact hload

/-- C9 witness: ingesting the unrelated profile `W` at version `2` over the
store holding `X` — `X` is reported removed, still loadable, unchanged. -/
theorem c9_removed_not_deleted_amended_witness :
    diskKey pathX ∈ (ingestProfiles storeWithX SlicerT.bambustudio (strOf "2")
      [profileW]).2.removed
    ∧ storeLoad (ingestProfiles storeWithX SlicerT.bambustudio (strOf "2")
      [profileW]).1 pathX = some profileX := by
  exact c9_removed_not_deleted_amended storeWithX SlicerT.bambustudio (strOf "2")
    [profileW] pathX profileX rfl (by decide) rfl (by decide)
    (by decide) (by decide) (by decide)
    (by
      intro p hp oldName hrf
      rw [List.mem_singleton] at hp
      subst hp
      rw [show extractRenamedFrom profileW.settings = Option.none from rfl] at hrf
      exact Option.noConfusion hrf)

/-- C9 (counterexample): the profile `X` is present at the earlier version
(`storeWithX` was ingested at version 1) and absent from the version-2
profile set `[Y]`, yet after the ingestion it is not listed as removed and
its file has been deleted (it is no longer retrievable): ingesting `Y`
with `renamed_from = "X"` deletes X's file before the removed scan and
marks nothing as removed. -/
theorem c9_rename_removes_counterexample :
    (ingestProfiles storeWithX SlicerT.bambustudio (strOf "2") [profileY]).2.removed
      = []
    ∧ storeLoad (ingestProfiles storeWithX SlicerT.bambustudio (strOf "2")
        [profileY]).1 pathX = Option.none :=
  ⟨rfl, rfl⟩

theorem dictLookup_filter_none [DecidableEq α] (d : List (α × β)) (q : α × β → Bool)
    (k : α) (h : dictLookup d k = Option.none) :
    dictLookup (d.filter q) k = Option.none := by
  induction d with
  | nil => simp [dictLookup]
  | cons e rest ih =>
    rw [dictLookup] at h
    by_cases he : e.1 = k
    · rw [if_pos he] at h; exact Option.noConfusion h
    · rw [if_neg he] at h
      cases hq : q e
      · rw [List.filter_cons_of_neg (by simp [hq])]
        exact ih h
      · rw [List.filter_cons_of_pos (by simp [hq]), dictLookup, if_neg he]
        exact ih h

theorem resGcStep_eq (acc : ResourceState × List Str) (h : Str) (e : ResEntry)
    (hlk : dictLookup acc.1.manifest h = some e) :
    resGcStep acc h
      = (⟨acc.1.manifest.filter (fun x => decide (x.1 ≠ h)),
          acc.1.files.filter (fun f => decide (f ≠ (h, e.rtype)))⟩,
         acc.2 ++ [h]) := by
  simp only [resGcStep, resGetPath]
  rw [hlk]
  dsimp only
  by_cases hc : (acc.1.files.contains (h, e.rtype)) = true
  · rw [if_pos hc]
  · rw [if_neg hc]
    have hid : acc.1.files.filter (fun f => decide (f ≠ (h, e.rtype)))
        = acc.1.files := by
      apply List.filter_eq_self.mpr
      intro f hf
      simp only [decide_eq_true_eq]
      intro he
      subst he
      exact hc (by simpa using hf)
    rw [hid]

theorem resGc_fold (referenced : List Str) :
    ∀ (l : List (Str × ResEntry)) (cur : ResourceState) (rem : List Str),
    (l.map Prod.fst).Nodup →
    (∀ kv ∈ l, dictLookup cur.manifest kv.1 = some kv.2) →
    (∀ f ∈ cur.files, ∀ kv ∈ l, f.1 = kv.1 → f.2 = kv.2.rtype) →
    (∀ f ∈ (resGcLoop referenced l (cur, rem)).1.files,
        f ∈ cur.files ∧ ¬(f.1 ∈ l.map Prod.fst ∧ referenced.contains f.1 = false))
    ∧ (∀ f ∈ cur.files, referenced.contains f.1 = true →
        f ∈ (resGcLoop referenced l (cur, rem)).1.files)
    ∧ (∀ h, referenced.contains h = true →
        dictLookup (resGcLoop referenced l (cur, rem)).1.manifest h
          = dictLookup cur.manifest h)
    ∧ (∀ h, dictLookup cur.manifest h = Option.none →
        dictLookup (resGcLoop referenced l (cur, rem)).1.manifest h = Option.none)
    ∧ (∀ kv ∈ l, referenced.contains kv.1 = false →
        dictLookup (resGcLoop referenced l (cur, rem)).1.manifest kv.1 = Option.none)
    ∧ (resGcLoop referenced l (cur, rem)).2
        = rem ++ l.filterMap (fun q =>
            if referenced.contains q.1 then Option.none else some q.1)
    ∧ (∀ f ∈ cur.files, f.1 ∈ l.map Prod.fst → referenced.contains f.1 = false →
        f ∉ (resGcLoop referenced l (cur, rem)).1.files) := by
  intro l
  induction l with
  | nil =>
    intro cur rem _ _ _
    refine ⟨?_, ?_, ?_, ?_, ?_, ?_, ?_⟩
    · intro f hf; exact ⟨hf, by simp⟩
    · intro f hf _; exact hf
    · intro h _; rfl
    · intro h hh; exact hh
    · intro kv hkv; cases hkv
    · simp [resGcLoop]
    · intro f _ hmem; simp at hmem
  | cons kv l' ih =>
    intro cur rem hnd hlk hwf
    rw [List.map_cons, List.nodup_cons] at hnd
    by_cases hr : (referenced.contains kv.1) = true
    · have hloop : resGcLoop referenced (kv :: l') (cur, rem)
          = resGcLoop referenced l' (cur, rem) := by
        show List.foldl _ _ _ = _
        rw [List.foldl_cons, if_pos hr]
        rfl
      rw [hloop]
      obtain ⟨A, B, C, H, D, E, F⟩ := ih cur rem hnd.2
        (fun q hq => hlk q (List.mem_cons_of_mem _ hq))
        (fun f hf q hq hfq => hwf f hf q (List.mem_cons_of_mem _ hq) hfq)
      refine ⟨?_, B, C, H, ?_, ?_, ?_⟩
      · intro f hf
        obtain ⟨hf1, hf2⟩ := A f hf
        refine ⟨hf1, ?_⟩
        rintro ⟨hmem, hrf⟩
        rw [List.map_cons, List.mem_cons] at hmem
        rcases hmem with hmem | hmem
        · rw [hmem] at hrf; rw [hrf] at hr; exact Bool.noConfusion hr
        · exact hf2 ⟨hmem, hrf⟩
      · intro q hq hqr
        rcases List.mem_cons.mp hq with hq | hq
        · rw [hq] at hqr; rw [hqr] at hr; exact Bool.noConfusion hr
        · exact D q hq hqr
      · rw [E, List.filterMap_cons, if_pos hr]
      · intro f hf hmem hrf
        rw [List.map_cons, List.mem_cons] at hmem
        rcases hmem with hmem | hmem
        · rw [hmem] at hrf; rw [hrf] at hr; exact Bool.noConfusion hr
        · exact F f hf hmem hrf
    · have hre : referenced.contains kv.1 = false := by
        cases hcc : referenced.contains kv.1
        · rfl
        · exact absurd hcc hr
      have hstep := resGcStep_eq (cur, rem) kv.1 kv.2
        (hlk kv (List.mem_cons_self _ _))
      have hloop : resGcLoop referenced (kv :: l') (cur, rem)
          = resGcLoop referenced l'
            (⟨cur.manifest.filter (fun x => decide (x.1 ≠ kv.1)),
              cur.files.filter (fun f => decide (f ≠ (kv.1, kv.2.rtype)))⟩,
             rem ++ [kv.1]) := by
        show List.foldl _ _ _ = _
        rw [List.foldl_cons, if_neg hr, hstep]
        rfl
      rw [hloop]
      have hlk' : ∀ q ∈ l',
          dictLookup (cur.manifest.filter (fun x => decide (x.1 ≠ kv.1))) q.1
            = some q.2 := by
        intro q hq
        have hqne : kv.1 ≠ q.1 := by
          intro he
          exact hnd.1 (he ▸ List.mem_map.mpr ⟨q, hq, rfl⟩)
        rw [dictLookup_filter_ne _ hqne]
        exact hlk q (List.mem_cons_of_mem _ hq)
      have hwf' : ∀ f ∈ cur.files.filter (fun f => decide (f ≠ (kv.1, kv.2.rtype))),
          ∀ q ∈ l', f.1 = q.1 → f.2 = q.2.rtype := by
        intro f hf q hq hfq
        exact hwf f (List.mem_filter.mp hf).1 q (List.mem_cons_of_mem _ hq) hfq
      obtain ⟨A, B, C, H, D, E, F⟩ := ih
        ⟨cur.manifest.filter (fun x => decide (x.1 ≠ kv.1)),
         cur.files.filter (fun f => decide (f ≠ (kv.1, kv.2.rtype)))⟩
        (rem ++ [kv.1]) hnd.2 hlk' hwf'
      refine ⟨?_, ?_, ?_, ?_, ?_, ?_, ?_⟩
      · intro f hf
        obtain ⟨hf1, hf2⟩ := A f hf
        have hfcur : f ∈ cur.files := (List.mem_filter.mp hf1).1
        have hfne : f ≠ (kv.1, kv.2.rtype) := by
          have h2 := (List.mem_filter.mp hf1).2
          simpa using h2
        refine ⟨hfcur, ?_⟩
        rintro ⟨hmem, hrf⟩
        rw [List.map_cons, List.mem_cons] at hmem
        rcases hmem with hmem | hmem
        · exact hfne (Prod.ext hmem (hwf f hfcur kv (List.mem_cons_self _ _) hmem))
        · exact hf2 ⟨hmem, hrf⟩
      · intro f hf hfr
        have hfne : f ≠ (kv.1, kv.2.rtype) := by
          intro he
          have h1 : f.1 = kv.1 := by rw [he]
          rw [h1] at hfr
          rw [hfr] at hre
          exact Bool.noConfusion hre
        exact B f (List.mem_filter.mpr ⟨hf, by simpa using hfne⟩) hfr
      · intro h hh
        rw [C h hh]
        have hne : kv.1 ≠ h := by
          intro he
          rw [he] at hre
          rw [hh] at hre
          exact Bool.noConfusion hre
        exact dictLookup_filter_ne _ hne
      · intro h hh
        exact H h (dictLookup_filter_none _ _ _ hh)
      · intro q hq hqr
        rcases List.mem_cons.mp hq with hq | hq
        · rw [hq]
          exact H kv.1 (dictLookup_filter_ne_self _ _)
        · exact D q hq hqr
      · rw [E, List.filterMap_cons, if_neg hr]
        dsimp only
        rw [List.append_assoc]
        rfl
      · intro f hf hmem hrf
        rw [List.map_cons, List.mem_cons] at hmem
        by_cases hfkv : f = (kv.1, kv.2.rtype)
        · intro hfin
          have hmf := (List.mem_filter.mp (A f hfin).1).2
          rw [hfkv] at hmf
          simp at hmf
        · rcases hmem with hmem | hmem
          · exact absurd
              (Prod.ext hmem (hwf f hf kv (List.mem_cons_self _ _) hmem)) hfkv
          · exact F f (List.mem_filter.mpr ⟨hf, by simpa using hfkv⟩) hmem hrf

/-- C8: GC soundness.  For a well-formed resource directory (the manifest
keys are unique, every file on disk matches its manifest entry's type and
has a manifest entry): after `gc(referenced)` every remaining file's hash
is in `referenced`; no referenced hash has its manifest entry changed or
its file removed; the removed list is exactly the unreferenced manifest
keys (in manifest order), their entries are gone, and their files are
deleted. -/
theorem c8_gc_soundness (st : ResourceState) (referenced : List Str)
    (hnd : (st.manifest.map Prod.fst).Nodup)
    (hwf : ∀ f ∈ st.files, ∀ kv ∈ st.manifest, f.1 = kv.1 → f.2 = kv.2.rtype)
    (hcov : ∀ f ∈ st.files, f.1 ∈ st.manifest.map Prod.fst) :
    (∀ f ∈ (resGc st referenced).1.files, referenced.contains f.1 = true)
    ∧ (∀ h, referenced.contains h = true →
        dictLookup (resGc st referenced).1.manifest h = dictLookup st.manifest h)
    ∧ (∀ f ∈ st.files, referenced.contains f.1 = true →
        f ∈ (resGc st referenced).1.files)
    ∧ (resGc st referenced).2
        = st.manifest.filterMap (fun q =>
            if referenced.contains q.1 then Option.none else some q.1)
    ∧ (∀ kv ∈ st.manifest, referenced.contains kv.1 = false →
        dictLookup (resGc st referenced).1.manifest kv.1 = Option.none)
    ∧ (∀ f ∈ st.files, referenced.contains f.1 = false →
        f ∉ (resGc st referenced).1.files) := by
  obtain ⟨A, B, C, H, D, E, F⟩ := resGc_fold referenced st.manifest st [] hnd
    (fun kv hkv => dictLookup_of_nodup_mem hnd hkv) hwf
  refine ⟨?_, ?_, ?_, ?_, ?_, ?_⟩
  · intro f hf
    obtain ⟨hf1, hf2⟩ := A f hf
    cases hc : referenced.contains f.1 with
    | false => exact absurd ⟨hcov f hf1, hc⟩ hf2
    | true => rfl
  · intro h hh
    exact C h hh
  · intro f hf hfr
    exact B f hf hfr
  · exact E
  · intro kv hkv hr
    exact D kv hkv hr
  · intro f hf hfr
    exact F f hf (hcov f hf) hfr

/-- C8 witness: a two-entry directory with only `aa` referenced — `bb`'s
entry and file go, `aa`'s stay. -/
theorem c8_gc_soundness_witness :
    (∀ f ∈ (resGc resStateW [strOf "aa"]).1.files,
        ([strOf "aa"].contains f.1) = true)
    ∧ (∀ h, ([strOf "aa"].contains h) = true →
        dictLookup (resGc resStateW [strOf "aa"]).1.manifest h
          = dictLookup resStateW.manifest h)
    ∧ (∀ f ∈ resStateW.files, ([strOf "aa"].contains f.1) = true →
        f ∈ (resGc resStateW [strOf "aa"]).1.files)
    ∧ (resGc resStateW [strOf "aa"]).2
        = resStateW.manifest.filterMap (fun q =>
            if [strOf "aa"].contains q.1 then Option.none else some q.1)
    ∧ (∀ kv ∈ resStateW.manifest, ([strOf "aa"].contains kv.1) = false →
        dictLookup (resGc resStateW [strOf "aa"]).1.manifest kv.1 = Option.none)
    ∧ (∀ f ∈ resStateW.files, ([strOf "aa"].contains f.1) = false →
        f ∉ (resGc resStateW [strOf "aa"]).1.files) :=
  c8_gc_soundness resStateW [strOf "aa"] (by decide) (by decide) (by decide)
